import Mathlib

/-!
Verification development for the Hospital Management System core:
the semicolon-delimited record codec (character-level state machines in
`Read_Hospital_Excel_Sheet.py` / `Write_Hospital_Excel_Sheet.py`) and the
in-memory data model plus scheduling operations of `main.py`.

Python strings are modelled as `List Char` (the source iterates files
character by character), Python `dict`s as insertion-ordered association
lists with unique keys, and interactive re-prompt loops as rejecting
validations returning `Except`.
-/

set_option maxHeartbeats 1000000

namespace HMS

instance instDecEqExcept {ε α : Type} [DecidableEq ε] [DecidableEq α] :
    DecidableEq (Except ε α) := fun a b => by
  cases a with
  | error e1 =>
    cases b with
    | error e2 => exact decidable_of_iff (e1 = e2) (by simp)
    | ok v2 => exact isFalse (by simp)
  | ok v1 =>
    cases b with
    | error e2 => exact isFalse (by simp)
    | ok v2 => exact decidable_of_iff (v1 = v2) (by simp)

/-! ### Python dict primitives (insertion-ordered association lists) -/

/-- `d[k] = v`: overwrite in place keeping key position, else append. -/
def dictSet {α : Type} : List (Int × α) → Int → α → List (Int × α)
  | [], k, v => [(k, v)]
  | (k', v') :: rest, k, v =>
    if k' = k then (k, v) :: rest else (k', v') :: dictSet rest k v

/-- `d[k]` lookup, `None` when the key is absent. -/
def dictGet {α : Type} : List (Int × α) → Int → Option α
  | [], _ => none
  | (k', v) :: rest, k => if k' = k then some v else dictGet rest k

/-- `d.pop(k)`: remove the entry for `k`. -/
def dictErase {α : Type} : List (Int × α) → Int → List (Int × α)
  | [], _ => []
  | (k', v) :: rest, k => if k' = k then rest else (k', v) :: dictErase rest k

/-- `d[k].append(e)`: in-place append to the list stored under `k`;
`none` models the `KeyError` raised when the key is absent. -/
def dictAppend {α : Type} : List (Int × List α) → Int → α → Option (List (Int × List α))
  | [], _, _ => none
  | (k', v) :: rest, k, e =>
    if k' = k then some ((k', v ++ [e]) :: rest)
    else (dictAppend rest k e).map (fun r => (k', v) :: r)

/-! ### Decimal numerals: Python `str(int)` and `int(str)` -/

/-- Decimal digit character for `n < 10`. -/
def digitChar : Nat → Char
  | 0 => '0' | 1 => '1' | 2 => '2' | 3 => '3' | 4 => '4'
  | 5 => '5' | 6 => '6' | 7 => '7' | 8 => '8' | _ => '9'

/-- Numeric value of a digit character. -/
def digitVal (c : Char) : Nat := c.toNat - 48

/-- Fuel-indexed digit expansion; fuel larger than `n` suffices since the
recursion divides `n` by ten each step. -/
def natToCharsAux : Nat → Nat → List Char
  | 0, _ => []
  | fuel + 1, n =>
    if n < 10 then [digitChar n]
    else natToCharsAux fuel (n / 10) ++ [digitChar (n % 10)]

/-- Decimal digits of a natural number, most significant first. -/
def natToChars (n : Nat) : List Char := natToCharsAux (n + 1) n

/-- Python `str` applied to an `int` value. -/
def intToChars (i : Int) : List Char :=
  if i < 0 then '-' :: natToChars i.natAbs else natToChars i.toNat

/-- Accumulate decimal digits left to right. -/
def natFromChars (ds : List Char) : Nat :=
  ds.foldl (fun a c => 10 * a + digitVal c) 0

/-- Nonempty all-digit strings denote naturals. -/
def parseNat (s : List Char) : Option Nat :=
  if s ≠ [] ∧ s.all Char.isDigit then some (natFromChars s) else none

/-- Python `int(str)`: optional sign followed by decimal digits; raises
(`none`) otherwise. -/
def parseInt (s : List Char) : Option Int :=
  match s with
  | [] => none
  | c :: rest =>
    if c = '-' then (parseNat rest).map (fun n => -(n : Int))
    else if c = '+' then (parseNat rest).map (fun n => (n : Int))
    else (parseNat s).map (fun n => (n : Int))

/-! ### Data model -/

/-- Value stored under a patient ID: the 7-element list
`[Department, Doctor_Name, Patient_Name, Patient_Age, Patient_Gender,
Patient_Address, RoomNumber]`. -/
structure Patient where
  department : List Char
  doctorName : List Char
  patientName : List Char
  age : List Char
  gender : List Char
  address : List Char
  roomNumber : List Char
deriving DecidableEq, Repr

/-- The doctor header sublist `[Department, Doctor_Name, Doctor_Address]`. -/
structure DoctorInfo where
  department : List Char
  doctorName : List Char
  doctorAddress : List Char
deriving DecidableEq, Repr

/-- An appointment sublist `[int(Patient_ID), Session_Start, Session_End]`. -/
structure Appointment where
  patientId : Int
  sessionStart : List Char
  sessionEnd : List Char
deriving DecidableEq, Repr

/-- One element of the list stored under a doctor ID: either the header
(first field a `str`) or an appointment (first field an `int`). -/
inductive DoctorEntry where
  | info (d : DoctorInfo)
  | appt (a : Appointment)
deriving DecidableEq, Repr

abbrev PatientsDB := List (Int × Patient)
abbrev DoctorsDB := List (Int × List DoctorEntry)

/-! ### Patients decoder: 8-state character scan of `Read_Patients_DataBase` -/

/-- `ValueError` from the `int(Patient_ID)` commit. -/
inductive PErr where
  | badInt
deriving DecidableEq, Repr

/-- Mutable scan state of `Read_Patients_DataBase`: the `flag` column
tracker, the eight field accumulators, and the result dict. -/
structure PState where
  flag : Nat
  pid : List Char
  dept : List Char
  dname : List Char
  pname : List Char
  age : List Char
  gender : List Char
  addr : List Char
  room : List Char
  db : PatientsDB
deriving DecidableEq, Repr

/-- One character of the `for i in text` loop of `Read_Patients_DataBase`. -/
def pstep (st : PState) (c : Char) : Except PErr PState :=
  if st.flag = 0 then
    if c = ';' then .ok { st with flag := 1 } else .ok { st with pid := st.pid ++ [c] }
  else if st.flag = 1 then
    if c = ';' then .ok { st with flag := 2 } else .ok { st with dept := st.dept ++ [c] }
  else if st.flag = 2 then
    if c = ';' then .ok { st with flag := 3 } else .ok { st with dname := st.dname ++ [c] }
  else if st.flag = 3 then
    if c = ';' then .ok { st with flag := 4 } else .ok { st with pname := st.pname ++ [c] }
  else if st.flag = 4 then
    if c = ';' then .ok { st with flag := 5 } else .ok { st with age := st.age ++ [c] }
  else if st.flag = 5 then
    if c = ';' then .ok { st with flag := 6 } else .ok { st with gender := st.gender ++ [c] }
  else if st.flag = 6 then
    if c = ';' then .ok { st with flag := 7 } else .ok { st with addr := st.addr ++ [c] }
  else if st.flag = 7 then
    if c = '\n' then
      match parseInt st.pid with
      | none => .error .badInt
      | some k =>
        .ok ⟨0, [], [], [], [], [], [], [], [],
          dictSet st.db k ⟨st.dept, st.dname, st.pname, st.age, st.gender, st.addr, st.room⟩⟩
    else .ok { st with room := st.room ++ [c] }
  else .ok st

/-- Run the patients scan over a character sequence. -/
def prun (st : PState) : List Char → Except PErr PState
  | [] => .ok st
  | c :: cs =>
    match pstep st c with
    | .error e => .error e
    | .ok st' => prun st' cs

/-- Fresh patients scan state over a given result dict. -/
def pfresh (db : PatientsDB) : PState := ⟨0, [], [], [], [], [], [], [], [], db⟩

/-- `Read_Patients_DataBase` applied to file text already in memory. -/
def decodePatientsText (t : List Char) : Except PErr PatientsDB :=
  (prun (pfresh []) t).map PState.db

/-- `Read_Patients_DataBase`: `none` models the `FileNotFoundError` branch
returning the empty dict. -/
def Read_Patients_DataBase (file : Option (List Char)) : Except PErr PatientsDB :=
  match file with
  | none => .ok []
  | some t => decodePatientsText t

/-- One line emitted by `Write_Patients_DataBase`. -/
def patientLine (k : Int) (p : Patient) : List Char :=
  intToChars k ++ ';' :: p.department ++ ';' :: p.doctorName ++ ';' :: p.patientName ++
    ';' :: p.age ++ ';' :: p.gender ++ ';' :: p.address ++ ';' :: p.roomNumber ++ ['\n']

/-- `Write_Patients_DataBase`: the full text written to the file. -/
def Write_Patients_DataBase (m : PatientsDB) : List Char :=
  (m.map fun kv => patientLine kv.1 kv.2).flatten

/-! ### Doctors decoder: `Read_Doctors_DataBase` -/

/-- `ValueError` from `int(...)` or `KeyError` from the append lookup. -/
inductive DErr where
  | badInt
  | keyError
deriving DecidableEq, Repr

/-- Mutable scan state of `Read_Doctors_DataBase`. -/
structure DState where
  flag : Nat
  did : List Char
  dept : List Char
  dname : List Char
  daddr : List Char
  pid : List Char
  sstart : List Char
  send : List Char
  db : DoctorsDB
deriving DecidableEq, Repr

/-- One character of the `for i in text` loop of `Read_Doctors_DataBase`.
At the `flag == 3` separator the header is committed with
`Doctors_Dict[int(Doctor_ID)] = [Doctor_Data_List]`; at the `flag == 6`
separator the appointment is appended with
`Doctors_Dict[int(Doctor_ID)].append([...])`. A newline in states 4 and 6
resets only the four doctor accumulators, exactly as the source does. -/
def dstep (st : DState) (c : Char) : Except DErr DState :=
  if st.flag = 0 then
    if c = ';' then .ok { st with flag := 1 } else .ok { st with did := st.did ++ [c] }
  else if st.flag = 1 then
    if c = ';' then .ok { st with flag := 2 } else .ok { st with dept := st.dept ++ [c] }
  else if st.flag = 2 then
    if c = ';' then .ok { st with flag := 3 } else .ok { st with dname := st.dname ++ [c] }
  else if st.flag = 3 then
    if c = ';' then
      match parseInt st.did with
      | none => .error .badInt
      | some k =>
        .ok { st with
                flag := 4
                db := dictSet st.db k [DoctorEntry.info ⟨st.dept, st.dname, st.daddr⟩] }
    else .ok { st with daddr := st.daddr ++ [c] }
  else if st.flag = 4 then
    if c = ';' then .ok { st with flag := 5 }
    else if c = '\n' then .ok { st with flag := 0, did := [], dept := [], dname := [], daddr := [] }
    else .ok { st with pid := st.pid ++ [c] }
  else if st.flag = 5 then
    if c = ';' then .ok { st with flag := 6 } else .ok { st with sstart := st.sstart ++ [c] }
  else if st.flag = 6 then
    if c = ';' then
      match parseInt st.pid with
      | none => .error .badInt
      | some pk =>
        match parseInt st.did with
        | none => .error .badInt
        | some k =>
          match dictAppend st.db k (DoctorEntry.appt ⟨pk, st.sstart, st.send⟩) with
          | none => .error .keyError
          | some db' => .ok { st with flag := 4, pid := [], sstart := [], send := [], db := db' }
    else if c = '\n' then .ok { st with flag := 0, did := [], dept := [], dname := [], daddr := [] }
    else .ok { st with send := st.send ++ [c] }
  else .ok st

/-- Run the doctors scan over a character sequence. -/
def drun (st : DState) : List Char → Except DErr DState
  | [] => .ok st
  | c :: cs =>
    match dstep st c with
    | .error e => .error e
    | .ok st' => drun st' cs

/-- Fresh doctors scan state over a given result dict. -/
def dfresh (db : DoctorsDB) : DState := ⟨0, [], [], [], [], [], [], [], db⟩

/-- One pass of `text.replace(";;", ";")`: non-overlapping left-to-right. -/
def replaceSS : List Char → List Char
  | [] => []
  | [c] => [c]
  | a :: b :: rest =>
    if a = ';' ∧ b = ';' then ';' :: replaceSS rest else a :: replaceSS (b :: rest)

/-- Whether `";;"` occurs, i.e. `text.count(";;")` is nonzero. -/
def hasSS : List Char → Bool
  | [] => false
  | [_] => false
  | a :: b :: rest => (decide (a = ';') && decide (b = ';')) || hasSS (b :: rest)

/-- Fuel-indexed form of `while text.count(";;"): text = text.replace(";;", ";")`.
Each pass with an occurrence strictly shortens the text, so fuel
`t.length + 1` always exceeds the number of loop iterations. -/
def collapseAux : Nat → List Char → List Char
  | 0, t => t
  | fuel + 1, t => if hasSS t then collapseAux fuel (replaceSS t) else t

/-- The preprocessing pass collapsing every `";;"` to `";"`. -/
def collapseSS (t : List Char) : List Char := collapseAux (t.length + 1) t

/-- `Read_Doctors_DataBase` applied to file text already in memory:
collapse doubled separators, then run the scan. -/
def decodeDoctorsText (t : List Char) : Except DErr DoctorsDB :=
  (drun (dfresh []) (collapseSS t)).map DState.db

/-- `Read_Doctors_DataBase`: `none` models the `FileNotFoundError` branch
returning the empty dict. -/
def Read_Doctors_DataBase (file : Option (List Char)) : Except DErr DoctorsDB :=
  match file with
  | none => .ok []
  | some t => decodeDoctorsText t

/-- `f"{item[0]};{item[1]};{item[2]};"` for one sublist of a doctor value. -/
def encodeEntry : DoctorEntry → List Char
  | .info d => d.department ++ ';' :: d.doctorName ++ ';' :: d.doctorAddress ++ [';']
  | .appt a => intToChars a.patientId ++ ';' :: a.sessionStart ++ ';' :: a.sessionEnd ++ [';']

/-- One line emitted by `Write_Doctors_DataBase`. -/
def doctorLine (k : Int) (es : List DoctorEntry) : List Char :=
  intToChars k ++ ';' :: (es.map encodeEntry).flatten ++ ['\n']

/-- `Write_Doctors_DataBase`: the full text written to the file. -/
def Write_Doctors_DataBase (m : DoctorsDB) : List Char :=
  (m.map fun kv => doctorLine kv.1 kv.2).flatten

/-! ### Scheduling engine (`main.py`) -/

/-- Python lexicographic `<` on strings (code point order). -/
def strLt : List Char → List Char → Bool
  | [], [] => false
  | [], _ :: _ => true
  | _ :: _, [] => false
  | a :: as, b :: bs => if a < b then true else if b < a then false else strLt as bs

/-- Python `>=` on strings: the negation of `<` for this total order. -/
def strGe (a b : List Char) : Bool := !(strLt a b)

/-- The `Session_Start[:2] == "11" or Session_Start[:2] == "12"` test. -/
def hourBad (s : List Char) : Bool :=
  decide (s.take 2 = ['1', '1']) || decide (s.take 2 = ['1', '2'])

/-- Body of the conflict loop: skip the header (`type(i[0]) == str`) and
test `Session_Start >= i[1] and Session_Start < i[2]`. -/
def apptConflicts (s : List Char) : DoctorEntry → Bool
  | .info _ => false
  | .appt a => strGe s a.sessionStart && strLt s a.sessionEnd

/-- The `for i in Doctors_DataBase[Doctor_ID]` conflict scan. -/
def conflictAny (es : List DoctorEntry) (s : List Char) : Bool :=
  es.any (apptConflicts s)

inductive BookErr where
  | doctorNotFound
  | invalidTimeWindow
  | conflict
deriving DecidableEq, Repr

/-- Book an Appointment (`Admin_choice == "1"`), with the interactive
re-prompt loops modelled as rejections: doctor must exist, the start must
pass the hour-prefix test, the start must conflict with no existing
appointment of that doctor, then the new appointment is appended. -/
def bookAppointment (db : DoctorsDB) (did p : Int) (s e : List Char) :
    Except BookErr DoctorsDB :=
  match dictGet db did with
  | none => .error .doctorNotFound
  | some es =>
    if hourBad s then .error .invalidTimeWindow
    else if conflictAny es s then .error .conflict
    else .ok (dictSet db did (es ++ [DoctorEntry.appt ⟨p, s, e⟩]))

/-- `str(j[0])` for an element of a doctor value: the department string of
the header, or the decimal form of an appointment patient ID. -/
def entryKeyStr : DoctorEntry → List Char
  | .info d => d.department
  | .appt a => intToChars a.patientId

/-- The inner `for j in Doctors_DataBase[i]` scan: first element whose
`str(j[0])` equals the target. -/
def firstMatch (es : List DoctorEntry) (pstr : List Char) : Option DoctorEntry :=
  es.find? fun e => decide (entryKeyStr e = pstr)

/-- `Doctors_DataBase[i].index(j)`: position of the first equal value. -/
def indexOfEntry (es : List DoctorEntry) (e : DoctorEntry) : Nat :=
  es.findIdx fun x => decide (x = e)

/-- `AppointmentIndexInDoctorsDataBase` from `main.py`: scan every sublist
of every doctor (the header included) comparing `str(patient_ID)` with
`str(j[0])`; on a match return `(list.index(j), doctor_id)`. -/
def AppointmentIndexInDoctorsDataBase (db : DoctorsDB) (p : Int) : Option (Nat × Int) :=
  match db with
  | [] => none
  | (k, es) :: rest =>
    match firstMatch es (intToChars p) with
    | some e => some (indexOfEntry es e, k)
    | none => AppointmentIndexInDoctorsDataBase rest p

inductive EditErr where
  | notFound
  | invalidTimeWindow
  | conflict
deriving DecidableEq, Repr

/-- `Doctors_DataBase[PairKey][AppointmentIndex] = [...]`. -/
def setApptAt (db : DoctorsDB) (k : Int) (i : Nat) (e : DoctorEntry) : DoctorsDB :=
  db.map fun kv => if kv.1 = k then (kv.1, kv.2.set i e) else kv

/-- Edit an Appointment (`Admin_choice == "2"`). `staleDid` models the
module-level `Doctor_ID` variable the source reads in its conflict loop
(`for i in Doctors_DataBase[Doctor_ID]`), which is whatever a previous
booking or doctor-menu action left behind, not the located `PairKey`; when
that key is absent the resulting `KeyError` (or `NameError`) is caught by
the inner `except`, which reports no appointment. -/
def editAppointment (db : DoctorsDB) (staleDid p : Int) (s e : List Char) :
    Except EditErr DoctorsDB :=
  match AppointmentIndexInDoctorsDataBase db p with
  | none => .error .notFound
  | some (idx, pairKey) =>
    if hourBad s then .error .invalidTimeWindow
    else
      match dictGet db staleDid with
      | none => .error .notFound
      | some staleEs =>
        if conflictAny staleEs s then .error .conflict
        else .ok (setApptAt db pairKey idx (DoctorEntry.appt ⟨p, s, e⟩))

/-- The in-memory pair of collections one session iteration works on. -/
structure HMSState where
  patients : PatientsDB
  doctors : DoctorsDB
deriving DecidableEq, Repr

/-- Delete Patient Data (`Admin_choice == "3"`): `Pateints_DataBase.pop`,
the doctors collection is not touched. -/
def deletePatientAction (st : HMSState) (p : Int) : HMSState :=
  ⟨dictErase st.patients p, st.doctors⟩

/-- Whether an entry is an appointment for patient `p`. -/
def isApptFor (p : Int) : DoctorEntry → Bool
  | .info _ => false
  | .appt a => decide (a.patientId = p)

/-- Whether an entry is a header whose department string collides with the
decimal form of patient `p` under the `str(j[0])` comparison. -/
def isDeptMatch (p : Int) : DoctorEntry → Bool
  | .info d => decide (d.department = intToChars p)
  | .appt _ => false

/-- Some appointment for patient `p` exists somewhere in the collection. -/
def hasApptFor (db : DoctorsDB) (p : Int) : Prop :=
  ∃ kv ∈ db, ∃ e ∈ kv.2, isApptFor p e = true

/-- Modelled from the spec: `FindAppointmentByPatient` as §4.3 words it —
a linear scan over every doctor in iteration order that excludes the
header entry and returns the index of the first appointment whose
`patientId` equals the target. Used as the comparison point for the
behaviour of `AppointmentIndexInDoctorsDataBase`. -/
def specFindIn (p : Int) : List DoctorEntry → Option Nat
  | [] => none
  | DoctorEntry.info _ :: rest => (specFindIn p rest).map (· + 1)
  | DoctorEntry.appt a :: rest =>
    if a.patientId = p then some 0 else (specFindIn p rest).map (· + 1)

/-- Modelled from the spec: the per-collection part of
`FindAppointmentByPatient` (see `specFindIn`). -/
def specFindAppointment (db : DoctorsDB) (p : Int) : Option (Nat × Int) :=
  match db with
  | [] => none
  | (k, es) :: rest =>
    match specFindIn p es with
    | some i => some (i, k)
    | none => specFindAppointment rest p

/-! ### Raw patient records (the line grammar, with arbitrary ID token) -/

/-- One line of the patients file as raw field strings, before the ID
token is interpreted: 8 fields separated by `;`, terminated by newline. -/
structure RawRec where
  f0 : List Char
  f1 : List Char
  f2 : List Char
  f3 : List Char
  f4 : List Char
  f5 : List Char
  f6 : List Char
  f7 : List Char
deriving DecidableEq, Repr

/-- `f0;f1;f2;f3;f4;f5;f6;f7` followed by the record terminator. -/
def encodeRawRec (r : RawRec) : List Char :=
  r.f0 ++ ';' :: r.f1 ++ ';' :: r.f2 ++ ';' :: r.f3 ++ ';' :: r.f4 ++
    ';' :: r.f5 ++ ';' :: r.f6 ++ ';' :: r.f7 ++ ['\n']

/-- The same 8 fields with the final newline missing. -/
def encodeTrailing (r : RawRec) : List Char :=
  r.f0 ++ ';' :: r.f1 ++ ';' :: r.f2 ++ ';' :: r.f3 ++ ';' :: r.f4 ++
    ';' :: r.f5 ++ ';' :: r.f6 ++ ';' :: r.f7

/-- The patient value a committed raw record denotes. -/
def recPatient (r : RawRec) : Patient :=
  ⟨r.f1, r.f2, r.f3, r.f4, r.f5, r.f6, r.f7⟩

/-- Field constraints under which the scan recovers the record structure:
the first seven fields contain no separator, the last no terminator. -/
abbrev cleanRawRec (r : RawRec) : Prop :=
  (∀ c ∈ r.f0, c ≠ ';') ∧ (∀ c ∈ r.f1, c ≠ ';') ∧ (∀ c ∈ r.f2, c ≠ ';') ∧
    (∀ c ∈ r.f3, c ≠ ';') ∧ (∀ c ∈ r.f4, c ≠ ';') ∧ (∀ c ∈ r.f5, c ≠ ';') ∧
    (∀ c ∈ r.f6, c ≠ ';') ∧ (∀ c ∈ r.f7, c ≠ '\n')

/-- The dict obtained by committing raw records in order: each record whose
ID token parses is stored under that key, as the commit step does. -/
def rawFoldFrom (db : PatientsDB) (recs : List RawRec) : PatientsDB :=
  recs.foldl
    (fun d r =>
      match parseInt r.f0 with
      | some k => dictSet d k (recPatient r)
      | none => d)
    db

/-- The raw record written by `Write_Patients_DataBase` for one entry. -/
def toRawRec (k : Int) (p : Patient) : RawRec :=
  ⟨intToChars k, p.department, p.doctorName, p.patientName, p.age, p.gender,
    p.address, p.roomNumber⟩

/-- No field of the patient value contains a separator or terminator. -/
abbrev patientClean (p : Patient) : Prop :=
  (∀ c ∈ p.department, c ≠ ';' ∧ c ≠ '\n') ∧ (∀ c ∈ p.doctorName, c ≠ ';' ∧ c ≠ '\n') ∧
    (∀ c ∈ p.patientName, c ≠ ';' ∧ c ≠ '\n') ∧ (∀ c ∈ p.age, c ≠ ';' ∧ c ≠ '\n') ∧
    (∀ c ∈ p.gender, c ≠ ';' ∧ c ≠ '\n') ∧ (∀ c ∈ p.address, c ≠ ';' ∧ c ≠ '\n') ∧
    (∀ c ∈ p.roomNumber, c ≠ ';' ∧ c ≠ '\n')

/-- A nonempty field containing no separator and no terminator. -/
abbrev cleanNE (f : List Char) : Prop := f ≠ [] ∧ ∀ c ∈ f, c ≠ ';' ∧ c ≠ '\n'

/-- All header fields nonempty and delimiter-free. -/
abbrev infoClean (d : DoctorInfo) : Prop :=
  cleanNE d.department ∧ cleanNE d.doctorName ∧ cleanNE d.doctorAddress

/-- Both time fields nonempty and delimiter-free. -/
abbrev apptClean (a : Appointment) : Prop :=
  cleanNE a.sessionStart ∧ cleanNE a.sessionEnd

/-- Value shape produced by the doctors decoder: the header first, then
appointments only, with all string fields nonempty and delimiter-free. -/
def doctorRecordWF (es : List DoctorEntry) : Prop :=
  ∃ (d : DoctorInfo) (as : List Appointment),
    es = DoctorEntry.info d :: as.map DoctorEntry.appt ∧
      infoClean d ∧ ∀ a ∈ as, apptClean a

/-- A field containing no separator and no terminator (possibly empty). -/
abbrev noDelims (f : List Char) : Prop := ∀ c ∈ f, c ≠ ';' ∧ c ≠ '\n'

/-- All string fields of the entry are free of `;` and newline. -/
def entryNoDelims : DoctorEntry → Prop
  | .info d => noDelims d.department ∧ noDelims d.doctorName ∧ noDelims d.doctorAddress
  | .appt a => noDelims a.sessionStart ∧ noDelims a.sessionEnd

instance instDecEntryNoDelims (e : DoctorEntry) : Decidable (entryNoDelims e) := by
  cases e <;> simp only [entryNoDelims] <;> infer_instance

/-- Nonemptiness and delimiter-freeness of all fields of an entry. -/
def entryCleanNE : DoctorEntry → Prop
  | .info d => infoClean d
  | .appt a => apptClean a

/-- Adjacent characters are never both semicolons. -/
def RSS (a b : Char) : Prop := ¬(a = ';' ∧ b = ';')

/-- A text with no two adjacent semicolons that does not start with one:
prepending a field and a separator preserves this. -/
def goodSS (l : List Char) : Prop := l.Chain' RSS ∧ ∀ c ∈ l.head?, c ≠ ';'

/-! ### Concrete inputs shared by witnesses and counterexamples -/

def tm0900 : List Char := ['0', '9', ':', '0', '0']
def tm1000 : List Char := ['1', '0', ':', '0', '0']
def tm1115 : List Char := ['1', '1', ':', '1', '5']
def tm1200 : List Char := ['1', '2', ':', '0', '0']
def tm1400 : List Char := ['1', '4', ':', '0', '0']
def tm1430 : List Char := ['1', '4', ':', '3', '0']
def tm1500 : List Char := ['1', '5', ':', '0', '0']
def tm1600 : List Char := ['1', '6', ':', '0', '0']

/-- Entries of the example doctor of §8: one appointment 14:00 to 15:00. -/
def exEntries : List DoctorEntry :=
  [DoctorEntry.info ⟨['C'], ['N'], ['A']⟩, DoctorEntry.appt ⟨5, tm1400, tm1500⟩]

def exDb : DoctorsDB := [(1, exEntries)]

/-- State exhibiting the stale-variable bug of the edit branch: doctor 1
holds the appointment of patient 5 at 14:00 to 15:00, doctor 2 holds an
unrelated 09:00 to 10:00 appointment. -/
def bugDb : DoctorsDB :=
  [(1, [DoctorEntry.info ⟨['C'], ['N'], ['A']⟩, DoctorEntry.appt ⟨5, tm1400, tm1500⟩]),
   (2, [DoctorEntry.info ⟨['D'], ['B'], ['Y']⟩, DoctorEntry.appt ⟨6, tm0900, tm1000⟩])]

/-- A patient record with empty fields, for concrete states. -/
def blankPatient : Patient := ⟨[], [], [], [], [], [], []⟩

/-- Counterexample to claim C5 as stated: with doctor 1 whose department
string is the single character 5 and no appointments at all,
`AppointmentIndexInDoctorsDataBase` for patient 5 returns the position of
the header entry instead of failing. -/
def c5Db : DoctorsDB := [(1, [DoctorEntry.info ⟨['5'], ['N'], ['A']⟩])]

/-- A concrete patient with nonempty clean fields. -/
def exPatient : Patient :=
  ⟨['C'], ['D', 'r'], ['J', 'o'], ['3', '0'], ['F'], ['S', 't'], ['7']⟩

/-- A raw record whose ID token is not an integer. -/
def badRec : RawRec := ⟨['x'], ['a'], ['b'], ['c'], ['d'], ['e'], ['f'], ['g']⟩

/-- A raw record with ID token 4. -/
def goodRec : RawRec := ⟨['4'], ['a'], ['b'], ['c'], ['d'], ['e'], ['f'], ['g']⟩

/-- The doctor collection refuting the round-trip claim as stated: one
doctor whose department is the empty string. -/
def c1Map : DoctorsDB := [(1, [DoctorEntry.info ⟨[], ['N'], ['A']⟩])]

/-! ### Numeral lemmas -/

theorem digitChar_isDigit (n : Nat) : (digitChar n).isDigit = true := by
  unfold digitChar; split <;> decide

theorem digitVal_digitChar {n : Nat} (h : n < 10) : digitVal (digitChar n) = n := by
  interval_cases n <;> decide

theorem isDigit_ne {c : Char} (h : c.isDigit = true) :
    c ≠ ';' ∧ c ≠ '\n' ∧ c ≠ '-' ∧ c ≠ '+' := by
  refine ⟨?_, ?_, ?_, ?_⟩ <;> rintro rfl <;> simp at h

theorem natToCharsAux_spec :
    ∀ fuel n, n < fuel →
      natToCharsAux fuel n ≠ [] ∧ (natToCharsAux fuel n).all Char.isDigit = true ∧
        natFromChars (natToCharsAux fuel n) = n := by
  intro fuel
  induction fuel with
  | zero => intro n h; omega
  | succ fuel ih =>
    intro n h
    by_cases h10 : n < 10
    · refine ⟨by simp [natToCharsAux, h10], ?_, ?_⟩
      · simp [natToCharsAux, h10, digitChar_isDigit]
      · simp [natToCharsAux, h10, natFromChars, digitVal_digitChar h10]
    · have hdiv : n / 10 < n := Nat.div_lt_self (by omega) (by omega)
      have hfuel : n / 10 < fuel := by omega
      obtain ⟨hne, hdig, hval⟩ := ih (n / 10) hfuel
      refine ⟨by simp [natToCharsAux, h10], ?_, ?_⟩
      · simp only [natToCharsAux, if_neg h10, List.all_append, hdig, List.all_cons,
          List.all_nil, digitChar_isDigit, Bool.and_self]
      · simp only [natToCharsAux, if_neg h10, natFromChars, List.foldl_append,
          List.foldl_cons, List.foldl_nil]
        rw [show (List.foldl (fun a c => 10 * a + digitVal c) 0 (natToCharsAux fuel (n / 10)))
              = natFromChars (natToCharsAux fuel (n / 10)) from rfl, hval,
            digitVal_digitChar (Nat.mod_lt n (by omega))]
        omega

theorem natToChars_ne_nil (n : Nat) : natToChars n ≠ [] :=
  (natToCharsAux_spec (n + 1) n (Nat.lt_succ_self n)).1

theorem natToChars_all_digits (n : Nat) : (natToChars n).all Char.isDigit = true :=
  (natToCharsAux_spec (n + 1) n (Nat.lt_succ_self n)).2.1

theorem natFromChars_natToChars (n : Nat) : natFromChars (natToChars n) = n :=
  (natToCharsAux_spec (n + 1) n (Nat.lt_succ_self n)).2.2

theorem parseNat_natToChars (n : Nat) : parseNat (natToChars n) = some n := by
  unfold parseNat
  rw [if_pos ⟨natToChars_ne_nil n, natToChars_all_digits n⟩, natFromChars_natToChars]

theorem parseInt_intToChars (i : Int) : parseInt (intToChars i) = some i := by
  by_cases hneg : i < 0
  · have : intToChars i = '-' :: natToChars i.natAbs := by simp [intToChars, hneg]
    rw [this]
    simp only [parseInt, if_pos rfl, parseNat_natToChars, Option.map_some]
    have hval : -(↑i.natAbs : Int) = i := by omega
    exact congrArg some hval
  · have : intToChars i = natToChars i.toNat := by simp [intToChars, hneg]
    rw [this]
    obtain ⟨c, rest, hc⟩ := List.exists_cons_of_ne_nil (natToChars_ne_nil i.toNat)
    have hdig : c.isDigit = true := by
      have := natToChars_all_digits i.toNat
      rw [hc] at this
      simp only [List.all_cons, Bool.and_eq_true] at this
      exact this.1
    obtain ⟨-, -, hm, hp⟩ := isDigit_ne hdig
    rw [hc]
    simp only [parseInt, if_neg hm, if_neg hp, ← hc, parseNat_natToChars, Option.map_some]
    have hval : (↑i.toNat : Int) = i := by omega
    exact congrArg some hval

theorem intToChars_injective : Function.Injective intToChars := by
  intro a b h
  have ha := parseInt_intToChars a
  have hb := parseInt_intToChars b
  rw [h, hb] at ha
  exact (Option.some_injective _ ha).symm

theorem intToChars_clean (i : Int) :
    intToChars i ≠ [] ∧ ∀ c ∈ intToChars i, c ≠ ';' ∧ c ≠ '\n' := by
  have hdigits : ∀ n : Nat, ∀ c ∈ natToChars n, c ≠ ';' ∧ c ≠ '\n' := by
    intro n c hc
    have := natToChars_all_digits n
    rw [List.all_eq_true] at this
    obtain ⟨h1, h2, -, -⟩ := isDigit_ne (this c hc)
    exact ⟨h1, h2⟩
  by_cases hneg : i < 0
  · rw [show intToChars i = '-' :: natToChars i.natAbs by simp [intToChars, hneg]]
    refine ⟨by simp, ?_⟩
    intro c hc
    rcases List.mem_cons.mp hc with rfl | hc
    · exact ⟨by decide, by decide⟩
    · exact hdigits _ c hc
  · rw [show intToChars i = natToChars i.toNat by simp [intToChars, hneg]]
    exact ⟨natToChars_ne_nil _, hdigits _⟩

/-! ### Scheduling lemmas -/

theorem conflictAny_iff (es : List DoctorEntry) (s : List Char) :
    conflictAny es s = true ↔
      ∃ a : Appointment, DoctorEntry.appt a ∈ es ∧
        strGe s a.sessionStart = true ∧ strLt s a.sessionEnd = true := by
  unfold conflictAny
  rw [List.any_eq_true]
  constructor
  · rintro ⟨e, he, hc⟩
    cases e with
    | info d => simp [apptConflicts] at hc
    | appt a =>
      rw [apptConflicts, Bool.and_eq_true] at hc
      exact ⟨a, he, hc.1, hc.2⟩
  · rintro ⟨a, ha, h1, h2⟩
    exact ⟨DoctorEntry.appt a, ha, by simp [apptConflicts, h1, h2]⟩

theorem dictGet_eq_none_of_not_mem {α : Type} (l : List (Int × α)) (k : Int)
    (h : k ∉ l.map Prod.fst) : dictGet l k = none := by
  induction l with
  | nil => rfl
  | cons kv rest ih =>
    simp only [List.map_cons, List.mem_cons] at h
    push_neg at h
    simp only [dictGet]
    rw [if_neg (fun hk => h.1 hk.symm)]
    exact ih h.2

theorem dictGet_dictErase_self {α : Type} (l : List (Int × α)) (k : Int)
    (h : (l.map Prod.fst).Nodup) : dictGet (dictErase l k) k = none := by
  induction l with
  | nil => rfl
  | cons kv rest ih =>
    simp only [List.map_cons, List.nodup_cons] at h
    simp only [dictErase]
    by_cases hk : kv.1 = k
    · rw [if_pos hk]
      exact dictGet_eq_none_of_not_mem rest k (hk ▸ h.1)
    · rw [if_neg hk]
      simp only [dictGet]
      rw [if_neg hk]
      exact ih h.2

theorem find_isSome_of_hasAppt (db : DoctorsDB) (p : Int) (h : hasApptFor db p) :
    (AppointmentIndexInDoctorsDataBase db p).isSome = true := by
  induction db with
  | nil => obtain ⟨kv, hkv, -⟩ := h; simp at hkv
  | cons kv rest ih =>
    obtain ⟨k, es⟩ := kv
    simp only [AppointmentIndexInDoctorsDataBase]
    cases hm : firstMatch es (intToChars p) with
    | some e => simp
    | none =>
      apply ih
      obtain ⟨kv', hkv', e, he, happ⟩ := h
      rcases List.mem_cons.mp hkv' with rfl | hrest
      · exfalso
        have hnone := List.find?_eq_none.mp hm e he
        cases e with
        | info d => simp [isApptFor] at happ
        | appt a =>
          rw [isApptFor, decide_eq_true_eq] at happ
          exact hnone (by simp [entryKeyStr, happ])
      · exact ⟨kv', hrest, e, he, happ⟩

/-! ### Claim theorems: scheduling -/

/-- Claim C3: with the hour-prefix stage passed, `bookAppointment` rejects a
proposed start `s` as a Conflict exactly when some existing appointment `a`
of that doctor satisfies `s >= a.start` and `s < a.end` under plain
lexicographic string comparison (headers are skipped), and the proposed end
token never influences which error, if any, is raised. -/
theorem C3_conflict_rule (db : DoctorsDB) (did : Int) (es : List DoctorEntry) (p : Int)
    (s e : List Char) (hdid : dictGet db did = some es) (hhour : hourBad s = false) :
    (bookAppointment db did p s e = .error .conflict ↔
      ∃ a : Appointment, DoctorEntry.appt a ∈ es ∧
        strGe s a.sessionStart = true ∧ strLt s a.sessionEnd = true)
    ∧ (∀ e' err, bookAppointment db did p s e = .error err ↔
        bookAppointment db did p s e' = .error err) := by
  constructor
  · rw [← conflictAny_iff]
    simp only [bookAppointment, hdid, hhour, Bool.false_eq_true, if_false]
    by_cases hc : conflictAny es s = true <;> simp [hc]
  · intro e' err
    simp only [bookAppointment, hdid, hhour, Bool.false_eq_true, if_false]
    by_cases hc : conflictAny es s = true <;> simp [hc]

/-- Witness for C3 at the spec §8 example: a doctor holding a 14:00 to 15:00
appointment; start 14:30 is rejected as a conflict and start 15:00 is
accepted (end-exclusive boundary). -/
theorem C3_conflict_rule_witness :
    (dictGet exDb 1 = some exEntries ∧ hourBad tm1430 = false) ∧
    ((bookAppointment exDb 1 9 tm1430 tm1600 = .error .conflict ↔
        ∃ a : Appointment, DoctorEntry.appt a ∈ exEntries ∧
          strGe tm1430 a.sessionStart = true ∧ strLt tm1430 a.sessionEnd = true)
      ∧ (∀ e' err, bookAppointment exDb 1 9 tm1430 tm1600 = .error err ↔
          bookAppointment exDb 1 9 tm1430 e' = .error err)) ∧
    bookAppointment exDb 1 9 tm1430 tm1600 = .error .conflict ∧
    bookAppointment exDb 1 9 tm1500 tm1600 =
      .ok (dictSet exDb 1 (exEntries ++ [DoctorEntry.appt ⟨9, tm1500, tm1600⟩])) :=
  ⟨⟨by decide, by decide⟩,
    C3_conflict_rule exDb 1 exEntries 9 tm1430 tm1600 (by decide) (by decide),
    by decide, by decide⟩

/-- Claim C4: `bookAppointment` rejects a start `s` as InvalidTimeWindow
exactly when the first two characters of `s` are `"11"` or `"12"`,
independently of the existing appointments. -/
theorem C4_hour_prefix_rule (db : DoctorsDB) (did : Int) (es : List DoctorEntry) (p : Int)
    (s e : List Char) (hdid : dictGet db did = some es) :
    bookAppointment db did p s e = .error .invalidTimeWindow ↔
      s.take 2 = ['1', '1'] ∨ s.take 2 = ['1', '2'] := by
  simp only [bookAppointment, hdid]
  by_cases hb : hourBad s = true
  · have hrhs : s.take 2 = ['1', '1'] ∨ s.take 2 = ['1', '2'] := by
      simpa [hourBad] using hb
    simp [hb, hrhs]
  · have hb' : hourBad s = false := by simpa using hb
    have hrhs : ¬(s.take 2 = ['1', '1'] ∨ s.take 2 = ['1', '2']) := by
      simpa [hourBad] using hb
    simp only [hb', Bool.false_eq_true, if_false]
    by_cases hc : conflictAny es s = true <;> simp [hc, hrhs]

/-- Witness for C4: starts 11:15 and 12:00 are rejected by the hour-prefix
rule and 09:00 passes it, on the §8 example doctor. -/
theorem C4_hour_prefix_rule_witness :
    dictGet exDb 1 = some exEntries ∧
    (bookAppointment exDb 1 9 tm1115 tm1600 = .error .invalidTimeWindow ↔
      tm1115.take 2 = ['1', '1'] ∨ tm1115.take 2 = ['1', '2']) ∧
    bookAppointment exDb 1 9 tm1115 tm1600 = .error .invalidTimeWindow ∧
    bookAppointment exDb 1 9 tm1200 tm1600 = .error .invalidTimeWindow ∧
    bookAppointment exDb 1 9 tm0900 tm1600 ≠ .error .invalidTimeWindow :=
  ⟨by decide, C4_hour_prefix_rule exDb 1 exEntries 9 tm1115 tm1600 (by decide),
    by decide, by decide, by decide⟩

/-- Claim C8: a missing backing file makes both loaders return the empty
collection, and on a present file no such recovery applies: the loaders
return exactly what the decoder produces, errors included. -/
theorem C8_missing_file_recovery :
    Read_Patients_DataBase none = .ok [] ∧ Read_Doctors_DataBase none = .ok [] ∧
    (∀ t, Read_Patients_DataBase (some t) = decodePatientsText t) ∧
    (∀ t, Read_Doctors_DataBase (some t) = decodeDoctorsText t) :=
  ⟨rfl, rfl, fun _ => rfl, fun _ => rfl⟩

/-- Claim C2 (code bug): the edit branch locates the appointment of
patient 5 under doctor 1 at index 1, and the new start 14:30 conflicts with
the very appointment sequence of that located doctor, yet the edit
succeeds, because the conflict loop reads `Doctors_DataBase[Doctor_ID]`
with the stale module-level `Doctor_ID` (here 2) instead of the located
`PairKey`. -/
theorem C2_edit_uses_stale_doctor :
    AppointmentIndexInDoctorsDataBase bugDb 5 = some (1, 1) ∧
    conflictAny [DoctorEntry.info ⟨['C'], ['N'], ['A']⟩,
      DoctorEntry.appt ⟨5, tm1400, tm1500⟩] tm1430 = true ∧
    editAppointment bugDb 2 5 tm1430 tm1600 =
      .ok [(1, [DoctorEntry.info ⟨['C'], ['N'], ['A']⟩, DoctorEntry.appt ⟨5, tm1430, tm1600⟩]),
           (2, [DoctorEntry.info ⟨['D'], ['B'], ['Y']⟩, DoctorEntry.appt ⟨6, tm0900, tm1000⟩])] := by
  decide

/-- Claim C9: deleting a patient who has a booked appointment removes the
patient from the patient collection, leaves every doctor record untouched,
and the appointment lookup for that patient still succeeds afterwards. -/
theorem C9_delete_patient_frame (st : HMSState) (p : Int)
    (hnodup : (st.patients.map Prod.fst).Nodup)
    (_hpex : (dictGet st.patients p).isSome = true)
    (ha : hasApptFor st.doctors p) :
    dictGet (deletePatientAction st p).patients p = none ∧
    (deletePatientAction st p).doctors = st.doctors ∧
    (AppointmentIndexInDoctorsDataBase (deletePatientAction st p).doctors p).isSome = true :=
  ⟨dictGet_dictErase_self _ _ hnodup, rfl, find_isSome_of_hasAppt st.doctors p ha⟩

/-- Witness for C9 on a one-patient one-doctor state. -/
theorem C9_delete_patient_frame_witness :
    (([(5, blankPatient)].map (Prod.fst (α := Int) (β := Patient))).Nodup ∧
      (dictGet [(5, blankPatient)] 5).isSome = true ∧ hasApptFor exDb 5) ∧
    (dictGet (deletePatientAction ⟨[(5, blankPatient)], exDb⟩ 5).patients 5 = none ∧
      (deletePatientAction ⟨[(5, blankPatient)], exDb⟩ 5).doctors = exDb ∧
      (AppointmentIndexInDoctorsDataBase
        (deletePatientAction ⟨[(5, blankPatient)], exDb⟩ 5).doctors 5).isSome = true) :=
  ⟨⟨by decide, by decide, ⟨(1, exEntries), by decide, DoctorEntry.appt ⟨5, tm1400, tm1500⟩,
      by decide, by decide⟩⟩,
    C9_delete_patient_frame ⟨[(5, blankPatient)], exDb⟩ 5 (by decide) (by decide)
      ⟨(1, exEntries), by decide, DoctorEntry.appt ⟨5, tm1400, tm1500⟩, by decide, by decide⟩⟩

/-! ### Lookup lemmas for FindAppointmentByPatient -/

theorem firstMatch_index_eq_specFindIn (p : Int) :
    ∀ es : List DoctorEntry,
      (∀ d : DoctorInfo, DoctorEntry.info d ∈ es → d.department ≠ intToChars p) →
      (firstMatch es (intToChars p)).map (fun e => indexOfEntry es e) = specFindIn p es := by
  intro es
  induction es with
  | nil => intro _; rfl
  | cons e0 rest ih =>
    intro hd
    by_cases hq : entryKeyStr e0 = intToChars p
    · have h1 : firstMatch (e0 :: rest) (intToChars p) = some e0 := by
        simp [firstMatch, List.find?_cons_of_pos, hq]
      have h2 : indexOfEntry (e0 :: rest) e0 = 0 := by
        simp [indexOfEntry, List.findIdx_cons]
      rw [h1]
      cases e0 with
      | info d => exact absurd hq (hd d (List.mem_cons_self _ _))
      | appt a =>
        have hpid : a.patientId = p := intToChars_injective (by simpa [entryKeyStr] using hq)
        simp [specFindIn, hpid, h2]
    · have h1 : firstMatch (e0 :: rest) (intToChars p) = firstMatch rest (intToChars p) := by
        simp [firstMatch, List.find?_cons_of_neg, hq]
      have hd' : ∀ d : DoctorInfo, DoctorEntry.info d ∈ rest → d.department ≠ intToChars p :=
        fun d hdm => hd d (List.mem_cons_of_mem _ hdm)
      have key : (firstMatch rest (intToChars p)).map (fun e => indexOfEntry (e0 :: rest) e)
          = ((firstMatch rest (intToChars p)).map (fun e => indexOfEntry rest e)).map (· + 1) := by

        cases hfm : firstMatch rest (intToChars p) with
        | none => rfl
        | some e' =>
          have hq' : entryKeyStr e' = intToChars p := by
            have := List.find?_some hfm
            simpa using this
          have hne : e0 ≠ e' := fun hcontra => hq (hcontra ▸ hq')
          simp [indexOfEntry, List.findIdx_cons, hne, Nat.add_comm]
      rw [h1, key, ih hd']
      cases e0 with
      | info d => simp [specFindIn]
      | appt a =>
        have hpid : a.patientId ≠ p := fun hpp => hq (by simp [entryKeyStr, hpp])
        simp [specFindIn, hpid]

theorem find_eq_specFind (db : DoctorsDB) (p : Int)
    (h : ∀ kv ∈ db, ∀ d : DoctorInfo, DoctorEntry.info d ∈ kv.2 →
      d.department ≠ intToChars p) :
    AppointmentIndexInDoctorsDataBase db p = specFindAppointment db p := by
  induction db with
  | nil => rfl
  | cons kv rest ih =>
    obtain ⟨k, es⟩ := kv
    have hes := h (k, es) (List.mem_cons_self _ _)
    have heq := firstMatch_index_eq_specFindIn p es hes
    simp only [AppointmentIndexInDoctorsDataBase, specFindAppointment]
    cases hm : firstMatch es (intToChars p) with
    | some e =>
      rw [hm] at heq
      rw [← heq]
      rfl
    | none =>
      rw [hm] at heq
      rw [← heq]
      exact ih fun kv' hkv' => h kv' (List.mem_cons_of_mem _ hkv')

theorem specFindIn_eq_none_iff (p : Int) (es : List DoctorEntry) :
    specFindIn p es = none ↔ ∀ e ∈ es, isApptFor p e = false := by
  induction es with
  | nil => simp [specFindIn]
  | cons e0 rest ih =>
    cases e0 with
    | info d => simp [specFindIn, isApptFor, ih]
    | appt a =>
      by_cases hpid : a.patientId = p
      · simp [specFindIn, isApptFor, hpid]
      · simp [specFindIn, isApptFor, hpid, ih]

theorem specFind_none_iff (db : DoctorsDB) (p : Int) :
    specFindAppointment db p = none ↔ ¬ hasApptFor db p := by
  rw [hasApptFor]
  induction db with
  | nil => simp [specFindAppointment]
  | cons kv rest ih =>
    simp only [specFindAppointment]
    cases hm : specFindIn p kv.2 with
    | some i => simp [hm, ← specFindIn_eq_none_iff p kv.2]
    | none =>
      rw [specFindIn_eq_none_iff] at hm
      simp only [ih, List.mem_cons]
      constructor
      · rintro hrest ⟨kv', hkv', e, he, happ⟩
        rcases hkv' with rfl | hkv'
        · rw [hm e he] at happ; exact Bool.false_ne_true happ
        · exact hrest ⟨kv', hkv', e, he, happ⟩
      · intro hno ⟨kv', hkv', e, he, happ⟩
        exact hno ⟨kv', Or.inr hkv', e, he, happ⟩

theorem specFindIn_some (p : Int) (es : List DoctorEntry) (i : Nat)
    (h : specFindIn p es = some i) :
    ∃ a : Appointment, es[i]? = some (DoctorEntry.appt a) ∧ a.patientId = p := by
  induction es generalizing i with
  | nil => simp [specFindIn] at h
  | cons e0 rest ih =>
    cases e0 with
    | info d =>
      simp only [specFindIn, Option.map_eq_some'] at h
      obtain ⟨j, hj, rfl⟩ := h
      obtain ⟨a, ha, hpa⟩ := ih j hj
      exact ⟨a, by simpa using ha, hpa⟩
    | appt a0 =>
      by_cases hpid : a0.patientId = p
      · rw [specFindIn, if_pos hpid] at h
        cases h
        exact ⟨a0, by simp, hpid⟩
      · rw [specFindIn, if_neg hpid] at h
        rw [Option.map_eq_some'] at h
        obtain ⟨j, hj, rfl⟩ := h
        obtain ⟨a, ha, hpa⟩ := ih j hj
        exact ⟨a, by simpa using ha, hpa⟩

theorem specFind_some (db : DoctorsDB) (p : Int) (i : Nat) (k : Int)
    (h : specFindAppointment db p = some (i, k)) :
    ∃ es, (k, es) ∈ db ∧ ∃ a : Appointment,
      es[i]? = some (DoctorEntry.appt a) ∧ a.patientId = p := by
  induction db with
  | nil => simp [specFindAppointment] at h
  | cons kv rest ih =>
    simp only [specFindAppointment] at h
    cases hm : specFindIn p kv.2 with
    | some j =>
      rw [hm] at h
      obtain ⟨rfl, rfl⟩ : j = i ∧ kv.1 = k := by
        have := Option.some_injective _ h
        exact ⟨congrArg Prod.fst this, congrArg Prod.snd this⟩
      exact ⟨kv.2, List.mem_cons_self _ _, specFindIn_some p kv.2 j hm⟩
    | none =>
      rw [hm] at h
      obtain ⟨es, hes, ha⟩ := ih h
      exact ⟨es, List.mem_cons_of_mem _ hes, ha⟩

/-! ### Claim theorems: lookup -/

/-- Claim C5 counterexample: the scan does not exclude the header — it
matches `str(patient_ID)` against the department string, so it returns the
header position `(0, 1)` although no appointment for patient 5 exists. -/
theorem C5_counterexample :
    AppointmentIndexInDoctorsDataBase c5Db 5 = some (0, 1) ∧
    (∀ kv ∈ c5Db, ∀ e ∈ kv.2, isApptFor 5 e = false) ∧
    c5Db[0]? = some (1, [DoctorEntry.info ⟨['5'], ['N'], ['A']⟩]) := by
  decide

/-- Claim C5 (amended): provided no doctor department string equals the
decimal form of `p`, the scan agrees with the spec description: it returns
the first appointment of patient `p` in iteration order skipping headers,
returns `none` exactly when no appointment for `p` exists, and the
returned index always points at an appointment of `p`, never at a header. -/
theorem C5_find_first_appointment (db : DoctorsDB) (p : Int)
    (hdm : ∀ kv ∈ db, ∀ e ∈ kv.2, isDeptMatch p e = false) :
    AppointmentIndexInDoctorsDataBase db p = specFindAppointment db p ∧
    (AppointmentIndexInDoctorsDataBase db p = none ↔ ¬ hasApptFor db p) ∧
    (∀ i k, AppointmentIndexInDoctorsDataBase db p = some (i, k) →
      ∃ es, (k, es) ∈ db ∧ ∃ a : Appointment,
        es[i]? = some (DoctorEntry.appt a) ∧ a.patientId = p) := by
  have h : ∀ kv ∈ db, ∀ d : DoctorInfo, DoctorEntry.info d ∈ kv.2 →
      d.department ≠ intToChars p := by
    intro kv hkv d hd hdept
    have := hdm kv hkv _ hd
    simp [isDeptMatch, hdept] at this
  have heq := find_eq_specFind db p h
  refine ⟨heq, ?_, ?_⟩
  · rw [heq]
    exact specFind_none_iff db p
  · intro i k hik
    rw [heq] at hik
    exact specFind_some db p i k hik

/-- Witness for amended C5 on the §8 example doctor: the appointment of
patient 5 is found at index 1 under doctor 1. -/
theorem C5_find_first_appointment_witness :
    (∀ kv ∈ exDb, ∀ e ∈ kv.2, isDeptMatch 5 e = false) ∧
    (AppointmentIndexInDoctorsDataBase exDb 5 = specFindAppointment exDb 5 ∧
      (AppointmentIndexInDoctorsDataBase exDb 5 = none ↔ ¬ hasApptFor exDb 5) ∧
      (∀ i k, AppointmentIndexInDoctorsDataBase exDb 5 = some (i, k) →
        ∃ es, (k, es) ∈ exDb ∧ ∃ a : Appointment,
          es[i]? = some (DoctorEntry.appt a) ∧ a.patientId = 5)) :=
  ⟨by decide, C5_find_first_appointment exDb 5 (by decide)⟩

/-! ### Patients machine run lemmas -/

@[simp] theorem prun_nil (st : PState) : prun st [] = .ok st := rfl

theorem prun_cons_ok {st st' : PState} {c : Char} (cs : List Char)
    (h : pstep st c = .ok st') : prun st (c :: cs) = prun st' cs := by
  simp [prun, h]

theorem prun_cons_err {st : PState} {c : Char} {e : PErr} (cs : List Char)
    (h : pstep st c = .error e) : prun st (c :: cs) = .error e := by
  simp [prun, h]

theorem prun_append (st : PState) (a b : List Char) :
    prun st (a ++ b) =
      match prun st a with
      | .error e => .error e
      | .ok st' => prun st' b := by
  induction a generalizing st with
  | nil => simp
  | cons c cs ih =>
    rw [List.cons_append]
    cases hs : pstep st c with
    | error e => rw [prun_cons_err _ hs, prun_cons_err _ hs]
    | ok st' => rw [prun_cons_ok _ hs, prun_cons_ok _ hs, ih]

theorem prun_acc0 (f : List Char) (hf : ∀ c ∈ f, c ≠ ';') (st : PState) (h : st.flag = 0) :
    prun st f = .ok { st with pid := st.pid ++ f } := by
  induction f generalizing st with
  | nil => simp
  | cons c cs ih =>
    have hc : c ≠ ';' := hf c (List.mem_cons_self _ _)
    have hstep : pstep st c = .ok { st with pid := st.pid ++ [c] } := by
      simp [pstep, h, hc]
    rw [prun_cons_ok cs hstep,
      ih (fun x hx => hf x (List.mem_cons_of_mem _ hx)) _ (by simp [h])]
    simp

theorem prun_acc1 (f : List Char) (hf : ∀ c ∈ f, c ≠ ';') (st : PState) (h : st.flag = 1) :
    prun st f = .ok { st with dept := st.dept ++ f } := by
  induction f generalizing st with
  | nil => simp
  | cons c cs ih =>
    have hc : c ≠ ';' := hf c (List.mem_cons_self _ _)
    have hstep : pstep st c = .ok { st with dept := st.dept ++ [c] } := by
      simp [pstep, h, hc]
    rw [prun_cons_ok cs hstep,
      ih (fun x hx => hf x (List.mem_cons_of_mem _ hx)) _ (by simp [h])]
    simp

theorem prun_acc2 (f : List Char) (hf : ∀ c ∈ f, c ≠ ';') (st : PState) (h : st.flag = 2) :
    prun st f = .ok { st with dname := st.dname ++ f } := by
  induction f generalizing st with
  | nil => simp
  | cons c cs ih =>
    have hc : c ≠ ';' := hf c (List.mem_cons_self _ _)
    have hstep : pstep st c = .ok { st with dname := st.dname ++ [c] } := by
      simp [pstep, h, hc]
    rw [prun_cons_ok cs hstep,
      ih (fun x hx => hf x (List.mem_cons_of_mem _ hx)) _ (by simp [h])]
    simp

theorem prun_acc3 (f : List Char) (hf : ∀ c ∈ f, c ≠ ';') (st : PState) (h : st.flag = 3) :
    prun st f = .ok { st with pname := st.pname ++ f } := by
  induction f generalizing st with
  | nil => simp
  | cons c cs ih =>
    have hc : c ≠ ';' := hf c (List.mem_cons_self _ _)
    have hstep : pstep st c = .ok { st with pname := st.pname ++ [c] } := by
      simp [pstep, h, hc]
    rw [prun_cons_ok cs hstep,
      ih (fun x hx => hf x (List.mem_cons_of_mem _ hx)) _ (by simp [h])]
    simp

theorem prun_acc4 (f : List Char) (hf : ∀ c ∈ f, c ≠ ';') (st : PState) (h : st.flag = 4) :
    prun st f = .ok { st with age := st.age ++ f } := by
  induction f generalizing st with
  | nil => simp
  | cons c cs ih =>
    have hc : c ≠ ';' := hf c (List.mem_cons_self _ _)
    have hstep : pstep st c = .ok { st with age := st.age ++ [c] } := by
      simp [pstep, h, hc]
    rw [prun_cons_ok cs hstep,
      ih (fun x hx => hf x (List.mem_cons_of_mem _ hx)) _ (by simp [h])]
    simp

theorem prun_acc5 (f : List Char) (hf : ∀ c ∈ f, c ≠ ';') (st : PState) (h : st.flag = 5) :
    prun st f = .ok { st with gender := st.gender ++ f } := by
  induction f generalizing st with
  | nil => simp
  | cons c cs ih =>
    have hc : c ≠ ';' := hf c (List.mem_cons_self _ _)
    have hstep : pstep st c = .ok { st with gender := st.gender ++ [c] } := by
      simp [pstep, h, hc]
    rw [prun_cons_ok cs hstep,
      ih (fun x hx => hf x (List.mem_cons_of_mem _ hx)) _ (by simp [h])]
    simp

theorem prun_acc6 (f : List Char) (hf : ∀ c ∈ f, c ≠ ';') (st : PState) (h : st.flag = 6) :
    prun st f = .ok { st with addr := st.addr ++ f } := by
  induction f generalizing st with
  | nil => simp
  | cons c cs ih =>
    have hc : c ≠ ';' := hf c (List.mem_cons_self _ _)
    have hstep : pstep st c = .ok { st with addr := st.addr ++ [c] } := by
      simp [pstep, h, hc]
    rw [prun_cons_ok cs hstep,
      ih (fun x hx => hf x (List.mem_cons_of_mem _ hx)) _ (by simp [h])]
    simp

theorem prun_acc7 (f : List Char) (hf : ∀ c ∈ f, c ≠ '\n') (st : PState) (h : st.flag = 7) :
    prun st f = .ok { st with room := st.room ++ f } := by
  induction f generalizing st with
  | nil => simp
  | cons c cs ih =>
    have hc : c ≠ '\n' := hf c (List.mem_cons_self _ _)
    have hstep : pstep st c = .ok { st with room := st.room ++ [c] } := by
      simp [pstep, h, hc]
    rw [prun_cons_ok cs hstep,
      ih (fun x hx => hf x (List.mem_cons_of_mem _ hx)) _ (by simp [h])]
    simp

theorem prun_append_ok {st st' : PState} (a b : List Char) (h : prun st a = .ok st') :
    prun st (a ++ b) = prun st' b := by
  rw [prun_append, h]

theorem prun_append_err {st : PState} {e : PErr} (a b : List Char)
    (h : prun st a = .error e) : prun st (a ++ b) = .error e := by
  rw [prun_append, h]

theorem prun_seg0 (st : PState) (h : st.flag = 0) (f : List Char)
    (hf : ∀ c ∈ f, c ≠ ';') (rest : List Char) :
    prun st (f ++ ';' :: rest) = prun { st with flag := 1, pid := st.pid ++ f } rest := by
  rw [prun_append_ok _ _ (prun_acc0 f hf st h)]
  exact prun_cons_ok rest (by simp [pstep, h])

theorem prun_seg1 (st : PState) (h : st.flag = 1) (f : List Char)
    (hf : ∀ c ∈ f, c ≠ ';') (rest : List Char) :
    prun st (f ++ ';' :: rest) = prun { st with flag := 2, dept := st.dept ++ f } rest := by
  rw [prun_append_ok _ _ (prun_acc1 f hf st h)]
  exact prun_cons_ok rest (by simp [pstep, h])

theorem prun_seg2 (st : PState) (h : st.flag = 2) (f : List Char)
    (hf : ∀ c ∈ f, c ≠ ';') (rest : List Char) :
    prun st (f ++ ';' :: rest) = prun { st with flag := 3, dname := st.dname ++ f } rest := by
  rw [prun_append_ok _ _ (prun_acc2 f hf st h)]
  exact prun_cons_ok rest (by simp [pstep, h])

theorem prun_seg3 (st : PState) (h : st.flag = 3) (f : List Char)
    (hf : ∀ c ∈ f, c ≠ ';') (rest : List Char) :
    prun st (f ++ ';' :: rest) = prun { st with flag := 4, pname := st.pname ++ f } rest := by
  rw [prun_append_ok _ _ (prun_acc3 f hf st h)]
  exact prun_cons_ok rest (by simp [pstep, h])

theorem prun_seg4 (st : PState) (h : st.flag = 4) (f : List Char)
    (hf : ∀ c ∈ f, c ≠ ';') (rest : List Char) :
    prun st (f ++ ';' :: rest) = prun { st with flag := 5, age := st.age ++ f } rest := by
  rw [prun_append_ok _ _ (prun_acc4 f hf st h)]
  exact prun_cons_ok rest (by simp [pstep, h])

theorem prun_seg5 (st : PState) (h : st.flag = 5) (f : List Char)
    (hf : ∀ c ∈ f, c ≠ ';') (rest : List Char) :
    prun st (f ++ ';' :: rest) = prun { st with flag := 6, gender := st.gender ++ f } rest := by
  rw [prun_append_ok _ _ (prun_acc5 f hf st h)]
  exact prun_cons_ok rest (by simp [pstep, h])

theorem prun_seg6 (st : PState) (h : st.flag = 6) (f : List Char)
    (hf : ∀ c ∈ f, c ≠ ';') (rest : List Char) :
    prun st (f ++ ';' :: rest) = prun { st with flag := 7, addr := st.addr ++ f } rest := by
  rw [prun_append_ok _ _ (prun_acc6 f hf st h)]
  exact prun_cons_ok rest (by simp [pstep, h])

theorem prun_seg7 (st : PState) (h : st.flag = 7) (f : List Char)
    (hf : ∀ c ∈ f, c ≠ '\n') (rest : List Char) :
    prun st (f ++ '\n' :: rest) =
      match parseInt st.pid with
      | none => .error PErr.badInt
      | some k =>
        prun (pfresh (dictSet st.db k
          ⟨st.dept, st.dname, st.pname, st.age, st.gender, st.addr, st.room ++ f⟩)) rest := by
  rw [prun_append_ok _ _ (prun_acc7 f hf st h)]
  cases hpid : parseInt st.pid with
  | none => exact prun_cons_err rest (by simp [pstep, h, hpid])
  | some k => exact prun_cons_ok rest (by simp [pstep, pfresh, h, hpid])

/-- Running one well-separated raw record from a fresh state: commit the
record when the ID token parses, raise the integer error otherwise. -/
theorem prun_rawRec (db : PatientsDB) (r : RawRec) (hc : cleanRawRec r) (rest : List Char) :
    prun (pfresh db) (encodeRawRec r ++ rest) =
      match parseInt r.f0 with
      | none => .error PErr.badInt
      | some k => prun (pfresh (dictSet db k (recPatient r))) rest := by
  obtain ⟨h0, h1, h2, h3, h4, h5, h6, h7⟩ := hc
  have hshape : encodeRawRec r ++ rest =
      r.f0 ++ ';' :: (r.f1 ++ ';' :: (r.f2 ++ ';' :: (r.f3 ++ ';' :: (r.f4 ++
        ';' :: (r.f5 ++ ';' :: (r.f6 ++ ';' :: (r.f7 ++ '\n' :: rest))))))) := by
    simp [encodeRawRec]
  rw [hshape]
  rw [prun_seg0 _ rfl _ h0, prun_seg1 _ rfl _ h1, prun_seg2 _ rfl _ h2,
    prun_seg3 _ rfl _ h3, prun_seg4 _ rfl _ h4, prun_seg5 _ rfl _ h5,
    prun_seg6 _ rfl _ h6, prun_seg7 _ rfl _ h7]
  simp [pfresh, recPatient]

theorem prun_rawRec_some (db : PatientsDB) (r : RawRec) (k : Int) (rest : List Char)
    (hc : cleanRawRec r) (hk : parseInt r.f0 = some k) :
    prun (pfresh db) (encodeRawRec r ++ rest) =
      prun (pfresh (dictSet db k (recPatient r))) rest := by
  rw [prun_rawRec db r hc rest, hk]

theorem prun_rawRec_none (db : PatientsDB) (r : RawRec) (rest : List Char)
    (hc : cleanRawRec r) (hk : parseInt r.f0 = none) :
    prun (pfresh db) (encodeRawRec r ++ rest) = .error PErr.badInt := by
  rw [prun_rawRec db r hc rest, hk]

theorem rawFoldFrom_cons_some (db : PatientsDB) (r : RawRec) (k : Int) (rs : List RawRec)
    (hk : parseInt r.f0 = some k) :
    rawFoldFrom db (r :: rs) = rawFoldFrom (dictSet db k (recPatient r)) rs := by
  simp [rawFoldFrom, hk]

theorem prun_rawRecs (db : PatientsDB) (recs : List RawRec)
    (hc : ∀ r ∈ recs, cleanRawRec r) (hok : ∀ r ∈ recs, (parseInt r.f0).isSome = true) :
    prun (pfresh db) ((recs.map encodeRawRec).flatten) = .ok (pfresh (rawFoldFrom db recs)) := by
  induction recs generalizing db with
  | nil => simp [rawFoldFrom]
  | cons r rs ih =>
    cases hpid : parseInt r.f0 with
    | none =>
      have := hok r (List.mem_cons_self _ _)
      rw [hpid] at this
      cases this
    | some k =>
      rw [List.map_cons, List.flatten_cons,
        prun_rawRec_some db r k _ (hc r (List.mem_cons_self _ _)) hpid,
        ih (dictSet db k (recPatient r)) (fun r' h' => hc r' (List.mem_cons_of_mem _ h'))
          (fun r' h' => hok r' (List.mem_cons_of_mem _ h')),
        rawFoldFrom_cons_some db r k rs hpid]

theorem prun_rawRecs_err (db : PatientsDB) (recs : List RawRec)
    (hc : ∀ r ∈ recs, cleanRawRec r) (hbad : ∃ r ∈ recs, parseInt r.f0 = none) :
    prun (pfresh db) ((recs.map encodeRawRec).flatten) = .error PErr.badInt := by
  induction recs generalizing db with
  | nil => simp at hbad
  | cons r rs ih =>
    rw [List.map_cons, List.flatten_cons]
    cases hpid : parseInt r.f0 with
    | none => exact prun_rawRec_none db r _ (hc r (List.mem_cons_self _ _)) hpid
    | some k =>
      rw [prun_rawRec_some db r k _ (hc r (List.mem_cons_self _ _)) hpid]
      have hbad' : ∃ r' ∈ rs, parseInt r'.f0 = none := by
        rcases hbad with ⟨r', hr', hb⟩
        rcases List.mem_cons.mp hr' with rfl | hmem
        · rw [hpid] at hb; cases hb
        · exact ⟨r', hmem, hb⟩
      exact ih (dictSet db k (recPatient r))
        (fun r' h' => hc r' (List.mem_cons_of_mem _ h')) hbad'

theorem prun_trailing (db : PatientsDB) (r : RawRec) (hc : cleanRawRec r) :
    prun (pfresh db) (encodeTrailing r) =
      .ok ⟨7, r.f0, r.f1, r.f2, r.f3, r.f4, r.f5, r.f6, r.f7, db⟩ := by
  obtain ⟨h0, h1, h2, h3, h4, h5, h6, h7⟩ := hc
  have hshape : encodeTrailing r =
      r.f0 ++ ';' :: (r.f1 ++ ';' :: (r.f2 ++ ';' :: (r.f3 ++ ';' :: (r.f4 ++
        ';' :: (r.f5 ++ ';' :: (r.f6 ++ ';' :: r.f7)))))) := by
    simp [encodeTrailing]
  rw [hshape]
  rw [prun_seg0 _ rfl _ h0, prun_seg1 _ rfl _ h1, prun_seg2 _ rfl _ h2,
    prun_seg3 _ rfl _ h3, prun_seg4 _ rfl _ h4, prun_seg5 _ rfl _ h5,
    prun_seg6 _ rfl _ h6]
  rw [prun_acc7 r.f7 h7 _ rfl]
  simp [pfresh]

theorem dictSet_not_mem {α : Type} (db : List (Int × α)) (k : Int) (v : α)
    (h : k ∉ db.map Prod.fst) : dictSet db k v = db ++ [(k, v)] := by
  induction db with
  | nil => rfl
  | cons kv rest ih =>
    simp only [List.map_cons, List.mem_cons] at h
    push_neg at h
    simp only [dictSet]
    rw [if_neg (fun hk => h.1 hk.symm), ih h.2]
    rfl

theorem recPatient_toRawRec (k : Int) (p : Patient) : recPatient (toRawRec k p) = p := rfl

theorem write_patients_as_raw (m : PatientsDB) :
    Write_Patients_DataBase m = ((m.map fun kv => toRawRec kv.1 kv.2).map encodeRawRec).flatten := by
  rw [Write_Patients_DataBase, List.map_map]
  rfl

theorem rawFold_toRaw (m : PatientsDB) :
    ∀ db : PatientsDB, (m.map Prod.fst).Nodup →
      (∀ k ∈ m.map Prod.fst, k ∉ db.map Prod.fst) →
      rawFoldFrom db (m.map fun kv => toRawRec kv.1 kv.2) = db ++ m := by
  induction m with
  | nil => intro db _ _; simp [rawFoldFrom]
  | cons kv rest ih =>
    intro db hnodup hdisj
    obtain ⟨k, p⟩ := kv
    simp only [List.map_cons, List.nodup_cons] at hnodup
    have hstep : rawFoldFrom db ((((k, p) :: rest).map fun kv => toRawRec kv.1 kv.2)) =
        rawFoldFrom (dictSet db k p) (rest.map fun kv => toRawRec kv.1 kv.2) := by
      rw [List.map_cons,
        rawFoldFrom_cons_some db (toRawRec k p) k _ (parseInt_intToChars k),
        recPatient_toRawRec]
    rw [hstep]
    rw [dictSet_not_mem db k p (hdisj k (by simp))]
    rw [ih (db ++ [(k, p)]) hnodup.2 ?_]
    · simp
    · intro k' hk'
      simp only [List.map_append, List.mem_append, List.map_cons, List.map_nil]
      push_neg
      constructor
      · exact hdisj k' (by simp [hk'])
      · simp only [List.mem_singleton]
        rintro rfl
        exact hnodup.1 hk'

/-! ### Claim theorems: patients codec -/

/-- Claim C6: encoding a patient collection whose field values contain no
separator and no terminator and decoding it back is the identity. -/
theorem C6_patients_roundtrip (m : PatientsDB)
    (hnodup : (m.map Prod.fst).Nodup) (hclean : ∀ kv ∈ m, patientClean kv.2) :
    decodePatientsText (Write_Patients_DataBase m) = .ok m := by
  have hrecs : ∀ r ∈ m.map (fun kv => toRawRec kv.1 kv.2), cleanRawRec r := by
    intro r hr
    rw [List.mem_map] at hr
    obtain ⟨kv, hkv, rfl⟩ := hr
    obtain ⟨c1, c2, c3, c4, c5, c6, c7⟩ := hclean kv hkv
    exact ⟨fun c hc => ((intToChars_clean kv.1).2 c hc).1, fun c hc => (c1 c hc).1,
      fun c hc => (c2 c hc).1, fun c hc => (c3 c hc).1, fun c hc => (c4 c hc).1,
      fun c hc => (c5 c hc).1, fun c hc => (c6 c hc).1, fun c hc => (c7 c hc).2⟩
  have hok : ∀ r ∈ m.map (fun kv => toRawRec kv.1 kv.2), (parseInt r.f0).isSome = true := by
    intro r hr
    rw [List.mem_map] at hr
    obtain ⟨kv, hkv, rfl⟩ := hr
    rw [show (toRawRec kv.1 kv.2).f0 = intToChars kv.1 from rfl, parseInt_intToChars]
    rfl
  rw [write_patients_as_raw, decodePatientsText, prun_rawRecs [] _ hrecs hok,
    rawFold_toRaw m [] hnodup (by simp)]
  rfl

/-- Witness for C6 on a two-patient collection. -/
theorem C6_patients_roundtrip_witness :
    ((([(3, exPatient), (11, blankPatient)] : PatientsDB).map Prod.fst).Nodup ∧
      (∀ kv ∈ ([(3, exPatient), (11, blankPatient)] : PatientsDB), patientClean kv.2)) ∧
    decodePatientsText (Write_Patients_DataBase [(3, exPatient), (11, blankPatient)]) =
      .ok [(3, exPatient), (11, blankPatient)] :=
  ⟨⟨by decide, by decide⟩,
    C6_patients_roundtrip [(3, exPatient), (11, blankPatient)] (by decide) (by decide)⟩

/-- Claim C7: on well-separated records, decoding fails with the integer
format error exactly when some committed record has an ID token that does
not parse as an integer; when every ID token parses, decoding succeeds and
returns the committed records. -/
theorem C7_format_error_iff_bad_id (recs : List RawRec)
    (hc : ∀ r ∈ recs, cleanRawRec r) :
    (decodePatientsText ((recs.map encodeRawRec).flatten) = .error PErr.badInt ↔
      ∃ r ∈ recs, parseInt r.f0 = none) ∧
    ((∀ r ∈ recs, (parseInt r.f0).isSome = true) →
      decodePatientsText ((recs.map encodeRawRec).flatten) = .ok (rawFoldFrom [] recs)) := by
  constructor
  · constructor
    · intro herr
      by_contra hno
      push_neg at hno
      have hok : ∀ r ∈ recs, (parseInt r.f0).isSome = true := by
        intro r hr
        exact Option.ne_none_iff_isSome.mp (hno r hr)
      rw [decodePatientsText, prun_rawRecs [] recs hc hok] at herr
      simp [Except.map] at herr
    · intro hbad
      rw [decodePatientsText, prun_rawRecs_err [] recs hc hbad]
      rfl
  · intro hok
    rw [decodePatientsText, prun_rawRecs [] recs hc hok]
    rfl

/-- Witness for C7: a good record followed by a bad-ID record makes the
decoder fail; the good record alone decodes. -/
theorem C7_format_error_iff_bad_id_witness :
    ((∀ r ∈ [goodRec, badRec], cleanRawRec r) ∧ (∀ r ∈ [goodRec], cleanRawRec r)) ∧
    ((decodePatientsText (([goodRec, badRec].map encodeRawRec).flatten) = .error PErr.badInt ↔
        ∃ r ∈ [goodRec, badRec], parseInt r.f0 = none) ∧
      ((∀ r ∈ [goodRec, badRec], (parseInt r.f0).isSome = true) →
        decodePatientsText (([goodRec, badRec].map encodeRawRec).flatten) =
          .ok (rawFoldFrom [] [goodRec, badRec]))) ∧
    ((∀ r ∈ [goodRec], (parseInt r.f0).isSome = true) →
      decodePatientsText (([goodRec].map encodeRawRec).flatten) =
        .ok (rawFoldFrom [] [goodRec])) :=
  ⟨⟨by decide, by decide⟩,
    C7_format_error_iff_bad_id [goodRec, badRec] (by decide),
    (C7_format_error_iff_bad_id [goodRec] (by decide)).2⟩

/-- Claim C10: a record is committed only on the newline ending its final
field: appending a trailing record with the terminator missing leaves the
decoded result exactly the committed earlier records, with no error. -/
theorem C10_trailing_record_dropped (recs : List RawRec) (t : RawRec)
    (hc : ∀ r ∈ recs, cleanRawRec r) (hok : ∀ r ∈ recs, (parseInt r.f0).isSome = true)
    (ht : cleanRawRec t) :
    decodePatientsText ((recs.map encodeRawRec).flatten ++ encodeTrailing t) =
      .ok (rawFoldFrom [] recs) ∧
    decodePatientsText ((recs.map encodeRawRec).flatten) = .ok (rawFoldFrom [] recs) := by
  constructor
  · rw [decodePatientsText, prun_append_ok _ _ (prun_rawRecs [] recs hc hok),
      prun_trailing _ t ht]
    rfl
  · rw [decodePatientsText, prun_rawRecs [] recs hc hok]
    rfl

/-- Witness for C10: one committed record plus an unterminated trailing
record; the trailing record is dropped and its ID token is never parsed. -/
theorem C10_trailing_record_dropped_witness :
    ((∀ r ∈ [goodRec], cleanRawRec r) ∧ (∀ r ∈ [goodRec], (parseInt r.f0).isSome = true) ∧
      cleanRawRec badRec) ∧
    (decodePatientsText (([goodRec].map encodeRawRec).flatten ++ encodeTrailing badRec) =
        .ok (rawFoldFrom [] [goodRec]) ∧
      decodePatientsText (([goodRec].map encodeRawRec).flatten) =
        .ok (rawFoldFrom [] [goodRec])) :=
  ⟨⟨by decide, by decide, by decide⟩,
    C10_trailing_record_dropped [goodRec] badRec (by decide) (by decide) (by decide)⟩

/-! ### Doctors machine run lemmas -/

@[simp] theorem drun_nil (st : DState) : drun st [] = .ok st := rfl

theorem drun_cons_ok {st st' : DState} {c : Char} (cs : List Char)
    (h : dstep st c = .ok st') : drun st (c :: cs) = drun st' cs := by
  simp [drun, h]

theorem drun_cons_err {st : DState} {c : Char} {e : DErr} (cs : List Char)
    (h : dstep st c = .error e) : drun st (c :: cs) = .error e := by
  simp [drun, h]

theorem drun_append (st : DState) (a b : List Char) :
    drun st (a ++ b) =
      match drun st a with
      | .error e => .error e
      | .ok st' => drun st' b := by
  induction a generalizing st with
  | nil => simp
  | cons c cs ih =>
    rw [List.cons_append]
    cases hs : dstep st c with
    | error e => rw [drun_cons_err _ hs, drun_cons_err _ hs]
    | ok st' => rw [drun_cons_ok _ hs, drun_cons_ok _ hs, ih]

theorem drun_append_ok {st st' : DState} (a b : List Char) (h : drun st a = .ok st') :
    drun st (a ++ b) = drun st' b := by
  rw [drun_append, h]

theorem drun_acc0 (f : List Char) (hf : ∀ c ∈ f, c ≠ ';') (st : DState) (h : st.flag = 0) :
    drun st f = .ok { st with did := st.did ++ f } := by
  induction f generalizing st with
  | nil => simp
  | cons c cs ih =>
    have hc : c ≠ ';' := hf c (List.mem_cons_self _ _)
    have hstep : dstep st c = .ok { st with did := st.did ++ [c] } := by
      simp [dstep, h, hc]
    rw [drun_cons_ok cs hstep,
      ih (fun x hx => hf x (List.mem_cons_of_mem _ hx)) _ (by simp [h])]
    simp

theorem drun_acc1 (f : List Char) (hf : ∀ c ∈ f, c ≠ ';') (st : DState) (h : st.flag = 1) :
    drun st f = .ok { st with dept := st.dept ++ f } := by
  induction f generalizing st with
  | nil => simp
  | cons c cs ih =>
    have hc : c ≠ ';' := hf c (List.mem_cons_self _ _)
    have hstep : dstep st c = .ok { st with dept := st.dept ++ [c] } := by
      simp [dstep, h, hc]
    rw [drun_cons_ok cs hstep,
      ih (fun x hx => hf x (List.mem_cons_of_mem _ hx)) _ (by simp [h])]
    simp

theorem drun_acc2 (f : List Char) (hf : ∀ c ∈ f, c ≠ ';') (st : DState) (h : st.flag = 2) :
    drun st f = .ok { st with dname := st.dname ++ f } := by
  induction f generalizing st with
  | nil => simp
  | cons c cs ih =>
    have hc : c ≠ ';' := hf c (List.mem_cons_self _ _)
    have hstep : dstep st c = .ok { st with dname := st.dname ++ [c] } := by
      simp [dstep, h, hc]
    rw [drun_cons_ok cs hstep,
      ih (fun x hx => hf x (List.mem_cons_of_mem _ hx)) _ (by simp [h])]
    simp

theorem drun_acc3 (f : List Char) (hf : ∀ c ∈ f, c ≠ ';') (st : DState) (h : st.flag = 3) :
    drun st f = .ok { st with daddr := st.daddr ++ f } := by
  induction f generalizing st with
  | nil => simp
  | cons c cs ih =>
    have hc : c ≠ ';' := hf c (List.mem_cons_self _ _)
    have hstep : dstep st c = .ok { st with daddr := st.daddr ++ [c] } := by
      simp [dstep, h, hc]
    rw [drun_cons_ok cs hstep,
      ih (fun x hx => hf x (List.mem_cons_of_mem _ hx)) _ (by simp [h])]
    simp

theorem drun_acc4 (f : List Char) (hf : ∀ c ∈ f, c ≠ ';' ∧ c ≠ '\n') (st : DState)
    (h : st.flag = 4) : drun st f = .ok { st with pid := st.pid ++ f } := by
  induction f generalizing st with
  | nil => simp
  | cons c cs ih =>
    obtain ⟨hc1, hc2⟩ := hf c (List.mem_cons_self _ _)
    have hstep : dstep st c = .ok { st with pid := st.pid ++ [c] } := by
      simp [dstep, h, hc1, hc2]
    rw [drun_cons_ok cs hstep,
      ih (fun x hx => hf x (List.mem_cons_of_mem _ hx)) _ (by simp [h])]
    simp

theorem drun_acc5 (f : List Char) (hf : ∀ c ∈ f, c ≠ ';') (st : DState) (h : st.flag = 5) :
    drun st f = .ok { st with sstart := st.sstart ++ f } := by
  induction f generalizing st with
  | nil => simp
  | cons c cs ih =>
    have hc : c ≠ ';' := hf c (List.mem_cons_self _ _)
    have hstep : dstep st c = .ok { st with sstart := st.sstart ++ [c] } := by
      simp [dstep, h, hc]
    rw [drun_cons_ok cs hstep,
      ih (fun x hx => hf x (List.mem_cons_of_mem _ hx)) _ (by simp [h])]
    simp

theorem drun_acc6 (f : List Char) (hf : ∀ c ∈ f, c ≠ ';' ∧ c ≠ '\n') (st : DState)
    (h : st.flag = 6) : drun st f = .ok { st with send := st.send ++ f } := by
  induction f generalizing st with
  | nil => simp
  | cons c cs ih =>
    obtain ⟨hc1, hc2⟩ := hf c (List.mem_cons_self _ _)
    have hstep : dstep st c = .ok { st with send := st.send ++ [c] } := by
      simp [dstep, h, hc1, hc2]
    rw [drun_cons_ok cs hstep,
      ih (fun x hx => hf x (List.mem_cons_of_mem _ hx)) _ (by simp [h])]
    simp

theorem dseg0 (st : DState) (h : st.flag = 0) (f : List Char)
    (hf : ∀ c ∈ f, c ≠ ';') (rest : List Char) :
    drun st (f ++ ';' :: rest) = drun { st with flag := 1, did := st.did ++ f } rest := by
  rw [drun_append_ok _ _ (drun_acc0 f hf st h)]
  exact drun_cons_ok rest (by simp [dstep, h])

theorem dseg1 (st : DState) (h : st.flag = 1) (f : List Char)
    (hf : ∀ c ∈ f, c ≠ ';') (rest : List Char) :
    drun st (f ++ ';' :: rest) = drun { st with flag := 2, dept := st.dept ++ f } rest := by
  rw [drun_append_ok _ _ (drun_acc1 f hf st h)]
  exact drun_cons_ok rest (by simp [dstep, h])

theorem dseg2 (st : DState) (h : st.flag = 2) (f : List Char)
    (hf : ∀ c ∈ f, c ≠ ';') (rest : List Char) :
    drun st (f ++ ';' :: rest) = drun { st with flag := 3, dname := st.dname ++ f } rest := by
  rw [drun_append_ok _ _ (drun_acc2 f hf st h)]
  exact drun_cons_ok rest (by simp [dstep, h])

theorem dseg3_commit (st : DState) (h : st.flag = 3) (f : List Char)
    (hf : ∀ c ∈ f, c ≠ ';') (rest : List Char) (k : Int)
    (hk : parseInt st.did = some k) :
    drun st (f ++ ';' :: rest) =
      drun { st with
              flag := 4
              daddr := st.daddr ++ f
              db := dictSet st.db k [DoctorEntry.info ⟨st.dept, st.dname, st.daddr ++ f⟩] }
        rest := by
  rw [drun_append_ok _ _ (drun_acc3 f hf st h)]
  exact drun_cons_ok rest (by simp [dstep, h, hk])

theorem dseg4 (st : DState) (h : st.flag = 4) (f : List Char)
    (hf : ∀ c ∈ f, c ≠ ';' ∧ c ≠ '\n') (rest : List Char) :
    drun st (f ++ ';' :: rest) = drun { st with flag := 5, pid := st.pid ++ f } rest := by
  rw [drun_append_ok _ _ (drun_acc4 f hf st h)]
  exact drun_cons_ok rest (by simp [dstep, h])

theorem dseg5 (st : DState) (h : st.flag = 5) (f : List Char)
    (hf : ∀ c ∈ f, c ≠ ';') (rest : List Char) :
    drun st (f ++ ';' :: rest) = drun { st with flag := 6, sstart := st.sstart ++ f } rest := by
  rw [drun_append_ok _ _ (drun_acc5 f hf st h)]
  exact drun_cons_ok rest (by simp [dstep, h])

theorem dseg6_commit (st : DState) (h : st.flag = 6) (f : List Char)
    (hf : ∀ c ∈ f, c ≠ ';' ∧ c ≠ '\n') (rest : List Char) (pk k : Int) (db' : DoctorsDB)
    (hpk : parseInt st.pid = some pk) (hk : parseInt st.did = some k)
    (happ : dictAppend st.db k (DoctorEntry.appt ⟨pk, st.sstart, st.send ++ f⟩) = some db') :
    drun st (f ++ ';' :: rest) =
      drun { st with flag := 4, pid := [], sstart := [], send := [], db := db' } rest := by
  rw [drun_append_ok _ _ (drun_acc6 f hf st h)]
  exact drun_cons_ok rest (by simp [dstep, h, hpk, hk, happ])

theorem deol4 (st : DState) (h : st.flag = 4) (rest : List Char) :
    drun st ('\n' :: rest) =
      drun { st with flag := 0, did := [], dept := [], dname := [], daddr := [] } rest :=
  drun_cons_ok rest (by simp [dstep, h])

theorem dictAppend_dictSet {α : Type} (db : List (Int × List α)) (k : Int)
    (v : List α) (e : α) :
    dictAppend (dictSet db k v) k e = some (dictSet db k (v ++ [e])) := by
  induction db with
  | nil => simp [dictSet, dictAppend]
  | cons kv rest ih =>
    obtain ⟨k', v'⟩ := kv
    by_cases hk : k' = k
    · simp [dictSet, dictAppend, hk]
    · simp [dictSet, dictAppend, hk, ih]

/-- Running the encoded appointment triples from the appointment state
appends each of them to the value stored under the current doctor key. -/
theorem drun_appts (as : List Appointment) (hca : ∀ a ∈ as, apptClean a) :
    ∀ (rest : List Char) (db : DoctorsDB) (k : Int) (v : List DoctorEntry)
      (did' d1 d2 d3 : List Char), parseInt did' = some k →
      drun ⟨4, did', d1, d2, d3, [], [], [], dictSet db k v⟩
          (((as.map fun a => encodeEntry (DoctorEntry.appt a)).flatten) ++ rest)
        = drun ⟨4, did', d1, d2, d3, [], [], [],
            dictSet db k (v ++ as.map DoctorEntry.appt)⟩ rest := by
  induction as with
  | nil => intro rest db k v did' d1 d2 d3 _; simp
  | cons a as' ih =>
    intro rest db k v did' d1 d2 d3 hk
    obtain ⟨⟨hs_ne, hs_cl⟩, ⟨he_ne, he_cl⟩⟩ := hca a (List.mem_cons_self _ _)
    have hshape : (((a :: as').map fun x => encodeEntry (DoctorEntry.appt x)).flatten) ++ rest =
        intToChars a.patientId ++ ';' :: (a.sessionStart ++ ';' :: (a.sessionEnd ++
          ';' :: (((as'.map fun x => encodeEntry (DoctorEntry.appt x)).flatten) ++ rest))) := by
      simp [encodeEntry]
    rw [hshape]
    rw [dseg4 _ rfl _ (fun c hc => (intToChars_clean a.patientId).2 c hc) _]
    rw [dseg5 _ rfl _ (fun c hc => (hs_cl c hc).1) _]
    have happ : dictAppend (dictSet db k v) k
        (DoctorEntry.appt ⟨a.patientId, [] ++ a.sessionStart, [] ++ a.sessionEnd⟩) =
        some (dictSet db k (v ++ [DoctorEntry.appt a])) := by
      simp only [List.nil_append]
      rw [show (DoctorEntry.appt ⟨a.patientId, a.sessionStart, a.sessionEnd⟩)
            = DoctorEntry.appt a from rfl]
      exact dictAppend_dictSet db k v (DoctorEntry.appt a)
    rw [dseg6_commit _ rfl _ he_cl _ a.patientId k (dictSet db k (v ++ [DoctorEntry.appt a]))
      (by simp [parseInt_intToChars]) (by simpa using hk) happ]
    have := ih (fun x hx => hca x (List.mem_cons_of_mem _ hx)) rest db k
      (v ++ [DoctorEntry.appt a]) did' d1 d2 d3 hk
    simp only [List.append_assoc, List.singleton_append] at this ⊢
    simpa using this

/-- Running one well-formed doctor line from a fresh state stores the
record under the doctor key and returns to the fresh state. -/
theorem drun_doctorLine (k : Int) (d : DoctorInfo) (as : List Appointment)
    (hd : infoClean d) (hca : ∀ a ∈ as, apptClean a) (db : DoctorsDB) (rest : List Char) :
    drun (dfresh db) (doctorLine k (DoctorEntry.info d :: as.map DoctorEntry.appt) ++ rest)
      = drun (dfresh (dictSet db k (DoctorEntry.info d :: as.map DoctorEntry.appt))) rest := by
  obtain ⟨⟨h1ne, h1⟩, ⟨h2ne, h2⟩, ⟨h3ne, h3⟩⟩ := hd
  have hshape : doctorLine k (DoctorEntry.info d :: as.map DoctorEntry.appt) ++ rest =
      intToChars k ++ ';' :: (d.department ++ ';' :: (d.doctorName ++ ';' ::
        (d.doctorAddress ++ ';' :: (((as.map fun x =>
          encodeEntry (DoctorEntry.appt x)).flatten) ++ '\n' :: rest)))) := by
    simp [doctorLine, encodeEntry, List.map_map, Function.comp_def]
  rw [hshape]
  rw [dseg0 _ rfl _ (fun c hc => ((intToChars_clean k).2 c hc).1) _]
  rw [dseg1 _ rfl _ (fun c hc => (h1 c hc).1) _]
  rw [dseg2 _ rfl _ (fun c hc => (h2 c hc).1) _]
  rw [dseg3_commit _ rfl _ (fun c hc => (h3 c hc).1) _ k (by simp [dfresh, parseInt_intToChars])]
  have hmid := drun_appts as hca ('\n' :: rest) db k [DoctorEntry.info d]
    ([] ++ intToChars k) ([] ++ d.department) ([] ++ d.doctorName) ([] ++ d.doctorAddress)
    (by simp [parseInt_intToChars])
  simp only [dfresh, List.nil_append] at hmid ⊢
  rw [show (DoctorEntry.info ⟨d.department, d.doctorName, d.doctorAddress⟩)
        = DoctorEntry.info d from rfl] at *
  rw [hmid]
  rw [deol4 _ rfl rest]
  rfl

/-- Running the whole encoded collection appends all records in order. -/
theorem drun_doctorLines (m : DoctorsDB) :
    ∀ db : DoctorsDB, ((m.map Prod.fst).Nodup) →
      (∀ k ∈ m.map Prod.fst, k ∉ db.map Prod.fst) →
      (∀ kv ∈ m, doctorRecordWF kv.2) →
      drun (dfresh db) ((m.map fun kv => doctorLine kv.1 kv.2).flatten) =
        .ok (dfresh (db ++ m)) := by
  induction m with
  | nil => intro db _ _ _; simp
  | cons kv rest ih =>
    intro db hnodup hdisj hwf
    obtain ⟨k, es⟩ := kv
    obtain ⟨d, as, rfl, hd, hca⟩ := hwf (k, es) (List.mem_cons_self _ _)
    simp only [List.map_cons, List.nodup_cons] at hnodup
    rw [List.map_cons, List.flatten_cons, drun_doctorLine k d as hd hca db _]
    rw [dictSet_not_mem db k _ (hdisj k (by simp))]
    rw [ih (db ++ [(k, DoctorEntry.info d :: as.map DoctorEntry.appt)]) hnodup.2 ?_
      (fun kv' hkv' => hwf kv' (List.mem_cons_of_mem _ hkv'))]
    · simp
    · intro k' hk'
      simp only [List.map_append, List.mem_append, List.map_cons, List.map_nil]
      push_neg
      refine ⟨hdisj k' (by simp [hk']), ?_⟩
      simp only [List.mem_singleton]
      rintro rfl
      exact hnodup.1 hk'

/-! ### The `;;`-collapse is the identity on the encoded doctors text -/

theorem hasSS_eq_false_iff (t : List Char) : hasSS t = false ↔ t.Chain' RSS := by
  induction t with
  | nil => simp [hasSS]
  | cons a t ih =>
    cases t with
    | nil => simp [hasSS]
    | cons b r =>
      rw [List.chain'_cons, ← ih]
      rw [show hasSS (a :: b :: r)
            = ((decide (a = ';') && decide (b = ';')) || hasSS (b :: r)) from rfl]
      simp [RSS, Decidable.not_and_iff_or_not]

theorem chain_of_noSemi (f : List Char) (hf : ∀ c ∈ f, c ≠ ';') : f.Chain' RSS := by
  induction f with
  | nil => exact List.chain'_nil
  | cons a l ih =>
    refine List.chain'_cons'.mpr ⟨fun y _ => ?_, ih fun c hc => hf c (List.mem_cons_of_mem _ hc)⟩
    exact fun hss => hf a (List.mem_cons_self _ _) hss.1

theorem chainSS_semi (cont : List Char) (hg : goodSS cont) :
    List.Chain' RSS (';' :: cont) := by
  refine List.chain'_cons'.mpr ⟨fun y hy => ?_, hg.1⟩
  exact fun hss => hg.2 y hy hss.2

theorem goodSS_glue (f cont : List Char) (hne : f ≠ []) (hf : ∀ c ∈ f, c ≠ ';')
    (hc : List.Chain' RSS cont) : goodSS (f ++ cont) := by
  constructor
  · refine List.chain'_append.mpr ⟨chain_of_noSemi f hf, hc, fun x hx y _ => ?_⟩
    refine fun hss => hf x ?_ hss.1
    obtain ⟨hfne, rfl⟩ := List.mem_getLast?_eq_getLast hx
    exact List.getLast_mem hfne
  · cases f with
    | nil => exact absurd rfl hne
    | cons c cs =>
      intro y hy
      simp only [List.cons_append, List.head?_cons, Option.mem_def, Option.some.injEq] at hy
      subst hy
      exact hf _ (List.mem_cons_self _ _)

theorem goodSS_nil : goodSS [] := ⟨List.chain'_nil, by simp⟩

theorem goodSS_encodeEntry (e : DoctorEntry) (he : entryCleanNE e) (cont : List Char)
    (hg : goodSS cont) : goodSS (encodeEntry e ++ cont) := by
  cases e with
  | info d =>
    obtain ⟨⟨h1ne, h1⟩, ⟨h2ne, h2⟩, ⟨h3ne, h3⟩⟩ := he
    have hshape : encodeEntry (DoctorEntry.info d) ++ cont =
        d.department ++ ';' :: (d.doctorName ++ ';' :: (d.doctorAddress ++ ';' :: cont)) := by
      simp [encodeEntry]
    rw [hshape]
    refine goodSS_glue _ _ h1ne (fun c hc => (h1 c hc).1) (chainSS_semi _ ?_)
    refine goodSS_glue _ _ h2ne (fun c hc => (h2 c hc).1) (chainSS_semi _ ?_)
    exact goodSS_glue _ _ h3ne (fun c hc => (h3 c hc).1) (chainSS_semi _ hg)
  | appt a =>
    obtain ⟨⟨h1ne, h1⟩, ⟨h2ne, h2⟩⟩ := he
    have hshape : encodeEntry (DoctorEntry.appt a) ++ cont =
        intToChars a.patientId ++ ';' :: (a.sessionStart ++ ';' ::
          (a.sessionEnd ++ ';' :: cont)) := by
      simp [encodeEntry]
    rw [hshape]
    refine goodSS_glue _ _ (intToChars_clean a.patientId).1
      (fun c hc => ((intToChars_clean a.patientId).2 c hc).1) (chainSS_semi _ ?_)
    refine goodSS_glue _ _ h1ne (fun c hc => (h1 c hc).1) (chainSS_semi _ ?_)
    exact goodSS_glue _ _ h2ne (fun c hc => (h2 c hc).1) (chainSS_semi _ hg)

theorem goodSS_entriesFlatten (es : List DoctorEntry) (he : ∀ e ∈ es, entryCleanNE e)
    (cont : List Char) (hg : goodSS cont) :
    goodSS ((es.map encodeEntry).flatten ++ cont) := by
  induction es with
  | nil => simpa using hg
  | cons e es' ih =>
    have hshape : (((e :: es').map encodeEntry).flatten) ++ cont =
        encodeEntry e ++ ((es'.map encodeEntry).flatten ++ cont) := by
      simp
    rw [hshape]
    exact goodSS_encodeEntry e (he e (List.mem_cons_self _ _)) _
      (ih fun e' h' => he e' (List.mem_cons_of_mem _ h'))

theorem goodSS_doctorLine (k : Int) (es : List DoctorEntry) (hwf : doctorRecordWF es)
    (cont : List Char) (hg : goodSS cont) : goodSS (doctorLine k es ++ cont) := by
  obtain ⟨d, as, rfl, hd, hca⟩ := hwf
  have he : ∀ e ∈ DoctorEntry.info d :: as.map DoctorEntry.appt, entryCleanNE e := by
    intro e hee
    rcases List.mem_cons.mp hee with rfl | hee
    · exact hd
    · rw [List.mem_map] at hee
      obtain ⟨a, ha, rfl⟩ := hee
      exact hca a ha
  have hshape : doctorLine k (DoctorEntry.info d :: as.map DoctorEntry.appt) ++ cont =
      intToChars k ++ ';' ::
        (((DoctorEntry.info d :: as.map DoctorEntry.appt).map encodeEntry).flatten ++
          '\n' :: cont) := by
    simp [doctorLine]
  rw [hshape]
  refine goodSS_glue _ _ (intToChars_clean k).1
    (fun c hc => ((intToChars_clean k).2 c hc).1) (chainSS_semi _ ?_)
  refine goodSS_entriesFlatten _ he _ ?_
  have : ('\n' :: cont) = ['\n'] ++ cont := rfl
  rw [goodSS, this]
  exact goodSS_glue ['\n'] cont (by simp) (by simp) hg.1

theorem goodSS_writeDoctors (m : DoctorsDB) (hwf : ∀ kv ∈ m, doctorRecordWF kv.2) :
    goodSS (Write_Doctors_DataBase m) := by
  induction m with
  | nil => exact goodSS_nil
  | cons kv rest ih =>
    have hshape : Write_Doctors_DataBase (kv :: rest) =
        doctorLine kv.1 kv.2 ++ Write_Doctors_DataBase rest := by
      simp [Write_Doctors_DataBase]
    rw [hshape]
    exact goodSS_doctorLine kv.1 kv.2 (hwf kv (List.mem_cons_self _ _)) _
      (ih fun kv' h' => hwf kv' (List.mem_cons_of_mem _ h'))

theorem collapseSS_id (t : List Char) (h : hasSS t = false) : collapseSS t = t := by
  simp [collapseSS, collapseAux, h]

/-! ### Claim theorems: doctors codec -/

/-- Claim C1 counterexample: every field of `c1Map` is free of `;` and
newline, yet decoding its encoding loses the doctor entirely, because the
empty department makes the line start `1;;N;A;` and the preprocessing pass
collapses the doubled separator, shifting every later field. -/
theorem C1_counterexample :
    (∀ kv ∈ c1Map, ∀ e ∈ kv.2, entryNoDelims e) ∧ (c1Map.map Prod.fst).Nodup ∧
    decodeDoctorsText (Write_Doctors_DataBase c1Map) = .ok [] ∧
    ([] : DoctorsDB) ≠ c1Map := by
  decide

/-- Claim C1 (amended): decoding the encoding of a doctor collection is the
identity when, in addition to containing no `;` and no newline, every
string field is nonempty (the counterexample shows empty fields break the
round trip through the `;;`-collapse pass). -/
theorem C1_doctors_roundtrip (m : DoctorsDB) (hnodup : (m.map Prod.fst).Nodup)
    (hwf : ∀ kv ∈ m, doctorRecordWF kv.2) :
    decodeDoctorsText (Write_Doctors_DataBase m) = .ok m := by
  rw [decodeDoctorsText,
    collapseSS_id _ ((hasSS_eq_false_iff _).mpr (goodSS_writeDoctors m hwf).1)]
  rw [show Write_Doctors_DataBase m = (m.map fun kv => doctorLine kv.1 kv.2).flatten from rfl]
  rw [drun_doctorLines m [] hnodup (by simp) hwf]
  rfl

/-- Witness for amended C1 on the §8 example doctor with one appointment. -/
theorem C1_doctors_roundtrip_witness :
    ((exDb.map Prod.fst).Nodup ∧ (∀ kv ∈ exDb, doctorRecordWF kv.2)) ∧
    decodeDoctorsText (Write_Doctors_DataBase exDb) = .ok exDb := by
  have hwf : ∀ kv ∈ exDb, doctorRecordWF kv.2 := by
    intro kv hkv
    simp only [exDb, List.mem_singleton] at hkv
    subst hkv
    exact ⟨⟨['C'], ['N'], ['A']⟩, [⟨5, tm1400, tm1500⟩], rfl, by decide, by decide⟩
  exact ⟨⟨by decide, hwf⟩, C1_doctors_roundtrip exDb (by decide) hwf⟩

end HMS
